/-
Verification of the UL_DAG core library: graph store, structural validator,
Kahn topological sort, and the VF2-style subgraph matcher.

The definitions below are a shallow embedding of the TypeScript source:
JavaScript `Map`s become insertion-ordered association lists, `Set`s become
insertion-ordered duplicate-free lists, integer arithmetic is `Int`, and the
two spots where the source can throw (the non-null assertions inside the
matcher's search) are modelled by an explicit `crash` result.
-/
import Mathlib

namespace ULDag

/-! ### Insertion-ordered maps and sets (JavaScript `Map` / `Set` semantics) -/

/-- Association list model of a JavaScript `Map` with `String` keys:
lookup returns the first matching entry. -/
abbrev AList (β : Type) := List (String × β)

def lookupA {β : Type} : AList β → String → Option β
  | [], _ => none
  | (k, v) :: rest, key => if k = key then some v else lookupA rest key

def hasA {β : Type} (m : AList β) (k : String) : Bool :=
  (lookupA m k).isSome

/-- `Map.set`: update the entry in place if the key is present (keeping its
position), otherwise append a fresh entry at the end. -/
def setA {β : Type} : AList β → String → β → AList β
  | [], k, v => [(k, v)]
  | (k', v') :: rest, k, v =>
    if k' = k then (k', v) :: rest else (k', v') :: setA rest k v

/-- `Map.delete` (removes every entry with the given key). -/
def delA {β : Type} : AList β → String → AList β
  | [], _ => []
  | p :: rest, k => if p.1 = k then delA rest k else p :: delA rest k

def keysA {β : Type} (m : AList β) : List String :=
  m.map (·.1)

/-- `Set.add`: append if absent. -/
def addS (s : List String) (x : String) : List String :=
  if x ∈ s then s else s ++ [x]

/-- `Set.delete`. -/
def delS : List String → String → List String
  | [], _ => []
  | y :: rest, x => if y = x then delS rest x else y :: delS rest x

/-! ### Data model (`types.ts`) -/

structure DAGNode (D : Type) where
  id : String
  data : Option D
deriving DecidableEq

structure DAGEdge where
  «from» : String
  «to» : String
deriving DecidableEq

structure DAGStructure (D : Type) where
  nodes : List (DAGNode D)
  edges : List DAGEdge
deriving DecidableEq

/-- Which endpoint of an edge is a dangling reference. -/
inductive MissingEnd
  | mFrom
  | mTo
deriving DecidableEq

structure DAGValidationResult where
  isValid : Bool
  isAcyclic : Bool
  cycles : Option (List (List String))
  orphanNodes : Option (List String)
  missingReferences : Option (List (DAGEdge × MissingEnd))
deriving DecidableEq

/-! ### The mutable graph store (`DAG.ts`), as a pure state type -/

structure DAG (D : Type) where
  nodeMap : AList (DAGNode D)
  outgoingEdges : AList (List String)
  incomingEdges : AList (List String)
deriving DecidableEq

def DAG.empty {D : Type} : DAG D := ⟨[], [], []⟩

def DAG.addNode {D : Type} (g : DAG D) (n : DAGNode D) : DAG D :=
  { nodeMap := setA g.nodeMap n.id n
    outgoingEdges :=
      if hasA g.outgoingEdges n.id then g.outgoingEdges
      else setA g.outgoingEdges n.id []
    incomingEdges :=
      if hasA g.incomingEdges n.id then g.incomingEdges
      else setA g.incomingEdges n.id [] }

def DAG.addEdge {D : Type} (g : DAG D) (src dst : String) : DAG D :=
  { g with
    outgoingEdges :=
      match lookupA g.outgoingEdges src with
      | some s => setA g.outgoingEdges src (addS s dst)
      | none => g.outgoingEdges
    incomingEdges :=
      match lookupA g.incomingEdges dst with
      | some s => setA g.incomingEdges dst (addS s src)
      | none => g.incomingEdges }

def DAG.removeNode {D : Type} (g : DAG D) (id : String) : DAG D :=
  { nodeMap := delA g.nodeMap id
    outgoingEdges := (delA g.outgoingEdges id).map (fun p => (p.1, delS p.2 id))
    incomingEdges := (delA g.incomingEdges id).map (fun p => (p.1, delS p.2 id)) }

def DAG.getNode {D : Type} (g : DAG D) (id : String) : Option (DAGNode D) :=
  lookupA g.nodeMap id

def DAG.getNodes {D : Type} (g : DAG D) : List (DAGNode D) :=
  g.nodeMap.map (·.2)

def DAG.getChildren {D : Type} (g : DAG D) (id : String) : List String :=
  (lookupA g.outgoingEdges id).getD []

def DAG.getParents {D : Type} (g : DAG D) (id : String) : List String :=
  (lookupA g.incomingEdges id).getD []

def DAG.clear {D : Type} (_g : DAG D) : DAG D := ⟨[], [], []⟩

def DAG.load {D : Type} (g : DAG D) (s : DAGStructure D) : DAG D :=
  let g1 := s.nodes.foldl (fun a n => a.addNode n) g.clear
  s.edges.foldl (fun a e => a.addEdge e.«from» e.«to») g1

def DAG.toStructure {D : Type} (g : DAG D) : DAGStructure D :=
  { nodes := g.getNodes
    edges := g.outgoingEdges.foldl
      (fun acc p => acc ++ p.2.map (fun dst => DAGEdge.mk p.1 dst)) [] }

/-- One public mutating operation of the store, for stating reachability. -/
inductive StoreOp (D : Type)
  | addNode (n : DAGNode D)
  | addEdge (src dst : String)
  | removeNode (id : String)
  | load (s : DAGStructure D)
  | clear

def applyOp {D : Type} (g : DAG D) : StoreOp D → DAG D
  | .addNode n => g.addNode n
  | .addEdge src dst => g.addEdge src dst
  | .removeNode id => g.removeNode id
  | .load s => g.load s
  | .clear => g.clear

def runOps {D : Type} (ops : List (StoreOp D)) : DAG D :=
  ops.foldl applyOp DAG.empty

/-- The store invariant: the key sets of the node map and of the two
adjacency maps coincide. -/
def DAG.Wf {D : Type} (g : DAG D) : Prop :=
  (∀ k ∈ keysA g.nodeMap, k ∈ keysA g.outgoingEdges) ∧
  (∀ k ∈ keysA g.outgoingEdges, k ∈ keysA g.nodeMap) ∧
  (∀ k ∈ keysA g.nodeMap, k ∈ keysA g.incomingEdges) ∧
  (∀ k ∈ keysA g.incomingEdges, k ∈ keysA g.nodeMap)

instance {D : Type} (g : DAG D) : Decidable g.Wf := by
  unfold DAG.Wf; infer_instance

/-! ### Structural validator (`utils.ts`): DFS cycle detection -/

/-- State of the recursive cycle-detecting DFS: recorded cycles, the visited
set, the recursion stack, and the explicit path with its position index. -/
structure FCSt where
  cycles : List (List String)
  visited : List String
  recStack : List String
  path : List String
  pathIndex : AList Nat
deriving DecidableEq

def FCSt.init : FCSt := ⟨[], [], [], [], []⟩

/-- The loop over the children of the node currently on top of the path:
an already-visited child on the recursion stack records a cycle and aborts,
an unvisited child recurses via `next` (aborting if that finds a cycle). -/
def dfsChildren (next : String → FCSt → FCSt × Bool) :
    List String → FCSt → FCSt × Bool
  | [], st => (st, false)
  | c :: cs, st =>
    if c ∈ st.visited then
      if c ∈ st.recStack then
        let cycleStart := (lookupA st.pathIndex c).getD 0
        ({ st with cycles := st.cycles ++ [st.path.drop cycleStart ++ [c]] }, true)
      else dfsChildren next cs st
    else
      match next c st with
      | (st', true) => (st', true)
      | (st', false) => dfsChildren next cs st'

/-- The recursive `dfs` of `findCycles`; the fuel only bounds the recursion
depth and is chosen large enough to never run out. On finding a cycle the
call returns `true` without restoring the path or recursion stack, exactly
as the source does. -/
def dfsF {D : Type} (dag : DAG D) : Nat → String → FCSt → FCSt × Bool
  | 0, _, st => (st, false)
  | fuel + 1, nodeId, st =>
    let idx := st.path.length
    let st1 : FCSt :=
      { st with
        visited := addS st.visited nodeId
        recStack := addS st.recStack nodeId
        path := st.path ++ [nodeId]
        pathIndex := setA st.pathIndex nodeId idx }
    match dfsChildren (dfsF dag fuel) (dag.getChildren nodeId) st1 with
    | (st', true) => (st', true)
    | (st', false) =>
      ({ st' with
          path := st'.path.dropLast
          pathIndex := delA st'.pathIndex nodeId
          recStack := delS st'.recStack nodeId }, false)

def fcLoop {D : Type} (dag : DAG D) (fuel : Nat) :
    List String → FCSt → FCSt
  | [], st => st
  | id :: rest, st =>
    if id ∈ st.visited then fcLoop dag fuel rest st
    else fcLoop dag fuel rest (dfsF dag fuel id st).1

/-- Depth bound for the DFS: every call pushes a fresh node of the store's
key/adjacency universe onto the visited set, so this fuel never runs out. -/
def dfsFuel {D : Type} (dag : DAG D) : Nat :=
  dag.nodeMap.length + dag.outgoingEdges.foldl (fun a p => a + p.2.length) 0 + 1

def findCycles {D : Type} (dag : DAG D) : List (List String) :=
  (fcLoop dag (dfsFuel dag) (dag.getNodes.map (·.id)) FCSt.init).cycles

def validateDAG {D : Type} (s : DAGStructure D) : DAGValidationResult :=
  let dag := DAG.load DAG.empty s
  let nodeIds := s.nodes.map (·.id)
  let missingReferences : List (DAGEdge × MissingEnd) :=
    s.edges.foldl
      (fun acc e =>
        (acc ++ (if e.«from» ∈ nodeIds then [] else [(e, MissingEnd.mFrom)]))
          ++ (if e.«to» ∈ nodeIds then [] else [(e, MissingEnd.mTo)])) []
  let cycles := findCycles dag
  let orphanNodes : List String :=
    (s.nodes.filter (fun n =>
      ¬ s.edges.any (fun e => e.«to» = n.id) ∧
      ¬ s.edges.any (fun e => e.«from» = n.id))).map (·.id)
  { isValid := missingReferences.length = 0 ∧ cycles.length = 0
    isAcyclic := cycles.length = 0
    cycles := if cycles.length > 0 then some cycles else none
    orphanNodes := if orphanNodes.length > 0 then some orphanNodes else none
    missingReferences :=
      if missingReferences.length > 0 then some missingReferences else none }

/-! ### Traversal engine (`utils.ts`): Kahn's algorithm -/

/-- The in-degree map: every node id starts at 0, then every edge bumps the
count of its target (creating the entry if the target names no node). -/
def initInDeg {D : Type} (s : DAGStructure D) : AList Int :=
  s.edges.foldl
    (fun m e => setA m e.«to» ((lookupA m e.«to»).getD 0 + 1))
    (s.nodes.foldl (fun m n => setA m n.id 0) [])

/-- Processing one child during a dequeue of Kahn's loop: decrement its
in-degree (`?? 1` mirrors the source's defaulting) and enqueue it when the
new degree is zero. -/
def kfoldStep (acc : AList Int × List String) (child : String) :
    AList Int × List String :=
  (setA acc.1 child ((lookupA acc.1 child).getD 1 - 1),
   if (lookupA acc.1 child).getD 1 - 1 = 0 then acc.2 ++ [child] else acc.2)

/-- The body of the `while` loop of `topologicalSort`. The JS queue is FIFO:
dequeue at the head, enqueue at the tail. The fuel never runs out for the
bound chosen in `topologicalSort`. -/
def kahnLoop {D : Type} (dag : DAG D) :
    Nat → AList Int → List String → List String → List String
  | 0, _, _, result => result
  | fuel + 1, inDeg, queue, result =>
    match queue with
    | [] => result
    | id :: rest =>
      let acc := (dag.getChildren id).foldl kfoldStep (inDeg, rest)
      kahnLoop dag fuel acc.1 acc.2 (result ++ [id])

def topologicalSort {D : Type} (s : DAGStructure D) : List String :=
  let dag := DAG.load DAG.empty s
  let inDeg := initInDeg s
  let queue := (inDeg.filter (fun p => p.2 = 0)).map (·.1)
  kahnLoop dag (s.nodes.length + s.edges.length + 1) inDeg queue []

/-! ### Subgraph matcher (`vf2.ts`) -/

/-- Deep value equality of the optional node payloads. -/
def dataMatches {D : Type} [DecidableEq D] (a b : Option D) : Bool :=
  a = b

structure Adjacency where
  outgoing : AList (List String)
  incoming : AList (List String)
deriving DecidableEq

/-- Empty adjacency sets for every node of the structure. -/
def adjInit {D : Type} (s : DAGStructure D) : Adjacency :=
  { outgoing := s.nodes.foldl (fun m n => setA m n.id []) []
    incoming := s.nodes.foldl (fun m n => setA m n.id []) [] }

/-- Recording one edge in the adjacency index; edges with an endpoint
naming no node are dropped. -/
def adjStep (nodeIds : List String) (a : Adjacency) (e : DAGEdge) : Adjacency :=
  if e.«from» ∈ nodeIds ∧ e.«to» ∈ nodeIds then
    { outgoing := setA a.outgoing e.«from»
        (addS ((lookupA a.outgoing e.«from»).getD []) e.«to»)
      incoming := setA a.incoming e.«to»
        (addS ((lookupA a.incoming e.«to»).getD []) e.«from») }
  else a

/-- Adjacency index of a structure. -/
def buildAdjacency {D : Type} (s : DAGStructure D) : Adjacency :=
  s.edges.foldl (adjStep (s.nodes.map (·.id))) (adjInit s)

/-- Out-neighbour set of `x` in an adjacency index. -/
def outNbrs (a : Adjacency) (x : String) : List String :=
  (lookupA a.outgoing x).getD []

/-- In-neighbour set of `x` in an adjacency index. -/
def inNbrs (a : Adjacency) (x : String) : List String :=
  (lookupA a.incoming x).getD []

/-- All data of `vf2SubgraphIsomorphism` that is fixed during the search. -/
structure VF2Ctx (D : Type) where
  pNodes : List String
  tNodes : List String
  pAdj : Adjacency
  tAdj : Adjacency
  pNodeMap : AList (DAGNode D)
  tNodeMap : AList (DAGNode D)

def mkCtx {D : Type} (pattern target : DAGStructure D) : VF2Ctx D :=
  { pNodes := pattern.nodes.map (·.id)
    tNodes := target.nodes.map (·.id)
    pAdj := buildAdjacency pattern
    tAdj := buildAdjacency target
    pNodeMap := pattern.nodes.foldl (fun m n => setA m n.id n) []
    tNodeMap := target.nodes.foldl (fun m n => setA m n.id n) [] }

/-- The per-candidate feasibility test: payload match, the exact-degree rule
for root/leaf/interior pattern nodes, then consistency with the already
mapped pattern neighbours. At every call site of the source both node
lookups succeed, so the `false` fallback is never taken. -/
def feasible {D : Type} [DecidableEq D] (P : VF2Ctx D)
    (mapping : AList String) (p t : String) : Bool :=
  match lookupA P.pNodeMap p, lookupA P.tNodeMap t with
  | some pNode, some tNode =>
    dataMatches pNode.data tNode.data &&
    ((if (inNbrs P.pAdj p).length = 0 then
        (outNbrs P.pAdj p).length = (outNbrs P.tAdj t).length
      else true) &&
     (if (outNbrs P.pAdj p).length = 0 then
        (inNbrs P.pAdj p).length = (inNbrs P.tAdj t).length
      else true) &&
     (if (inNbrs P.pAdj p).length ≠ 0 ∧ (outNbrs P.pAdj p).length ≠ 0 then
        (outNbrs P.pAdj p).length = (outNbrs P.tAdj t).length ∧
        (inNbrs P.pAdj p).length = (inNbrs P.tAdj t).length
      else true)) &&
    (outNbrs P.pAdj p).all (fun p2 =>
      match lookupA mapping p2 with
      | some t2 => (outNbrs P.tAdj t).contains t2
      | none => true) &&
    (inNbrs P.pAdj p).all (fun p1 =>
      match lookupA mapping p1 with
      | some t1 => (inNbrs P.tAdj t).contains t1
      | none => true)
  | _, _ => false

/-- Result of one search call: `fuelOut` is an artefact of the fuelled
embedding (provably unreachable), `crash` models the `TypeError` the source
throws when every pattern id is mapped while the mapping is still smaller
than the pattern node list (possible only with duplicate pattern ids). -/
inductive SRes
  | fuelOut
  | crash
  | done (found : Bool) (m : AList String)
deriving DecidableEq

/-- The loop over candidate target nodes: skip used targets, test
feasibility, commit and recurse, backtrack on failure. -/
def goT (next : AList String → SRes) (feas : AList String → String → String → Bool)
    (mapping : AList String) (p : String) : List String → SRes
  | [] => .done false mapping
  | t :: ts =>
    if (mapping.map (·.2)).contains t then goT next feas mapping p ts
    else if feas mapping p t then
      match next (mapping ++ [(p, t)]) with
      | .fuelOut => .fuelOut
      | .crash => .crash
      | .done true m => .done true m
      | .done false _ => goT next feas mapping p ts
    else goT next feas mapping p ts

/-- The recursive `search` of the source. When every pattern id is already
mapped but the mapping is still short (duplicate pattern ids), the source
calls `feasible(undefined, t)` for the first unused target and throws;
if every target is used the candidate loop is empty and it returns false. -/
def searchGo {D : Type} [DecidableEq D] (P : VF2Ctx D) :
    Nat → AList String → SRes
  | 0, _ => .fuelOut
  | fuel + 1, mapping =>
    if mapping.length = P.pNodes.length then .done true mapping
    else
      match P.pNodes.find? (fun id => (lookupA mapping id).isNone) with
      | none =>
        if P.tNodes.all (fun t => (mapping.map (·.2)).contains t) then
          .done false mapping
        else .crash
      | some p => goT (searchGo P fuel) (feasible P) mapping p P.tNodes

inductive VF2Res
  | crash
  | noMatch
  | found (m : AList String)
deriving DecidableEq

def vf2SubgraphIsomorphism {D : Type} [DecidableEq D]
    (pattern target : DAGStructure D) : VF2Res :=
  let pNodes := pattern.nodes.map (·.id)
  let tNodes := target.nodes.map (·.id)
  if pNodes.length = 0 then .found []
  else if pNodes.length > tNodes.length then .noMatch
  else
    match searchGo (mkCtx pattern target) (pNodes.length + 1) [] with
    | .done true m => .found m
    | .done false _ => .noMatch
    | .crash => .crash
    | .fuelOut => .crash

def isSubgraphIsomorphic {D : Type} [DecidableEq D]
    (pattern target : DAGStructure D) : Bool :=
  vf2SubgraphIsomorphism pattern target ≠ .crash &&
  vf2SubgraphIsomorphism pattern target ≠ .noMatch

/-- The exact-degree rule the matcher enforces on a candidate pair:
a root pattern node (in-degree 0) needs equal out-degree, a leaf pattern
node (out-degree 0) needs equal in-degree, an interior node needs both. -/
def degreeOK {D : Type} (P : VF2Ctx D) (p t : String) : Prop :=
  ((inNbrs P.pAdj p).length = 0 →
    (outNbrs P.pAdj p).length = (outNbrs P.tAdj t).length) ∧
  ((outNbrs P.pAdj p).length = 0 →
    (inNbrs P.pAdj p).length = (inNbrs P.tAdj t).length) ∧
  ((inNbrs P.pAdj p).length ≠ 0 → (outNbrs P.pAdj p).length ≠ 0 →
    (outNbrs P.pAdj p).length = (outNbrs P.tAdj t).length ∧
    (inNbrs P.pAdj p).length = (inNbrs P.tAdj t).length)

instance {D : Type} (P : VF2Ctx D) (p t : String) : Decidable (degreeOK P p t) := by
  unfold degreeOK; infer_instance

/-- Matching payloads of a candidate pair, through the id-to-node maps. -/
def dataOK {D : Type} (P : VF2Ctx D) (p t : String) : Prop :=
  ∃ pn tn, lookupA P.pNodeMap p = some pn ∧ lookupA P.tNodeMap t = some tn ∧
    pn.data = tn.data

/-- Invariant of the search's partial mapping: distinct keys drawn from the
pattern nodes, distinct values drawn from the target nodes, every pair
payload- and degree-feasible, and every mapped pattern edge between two
distinct mapped pattern nodes realized in the target adjacency. -/
def MappingOK {D : Type} (P : VF2Ctx D) (m : AList String) : Prop :=
  (keysA m).Nodup ∧ (m.map (·.2)).Nodup ∧
  (∀ pr ∈ m, pr.1 ∈ P.pNodes ∧ pr.2 ∈ P.tNodes) ∧
  (∀ pr ∈ m, dataOK P pr.1 pr.2 ∧ degreeOK P pr.1 pr.2) ∧
  (∀ pr qr, pr ∈ m → qr ∈ m → pr.1 ≠ qr.1 → qr.1 ∈ outNbrs P.pAdj pr.1 →
    qr.2 ∈ outNbrs P.tAdj pr.2)

/-! ### Semantic notions used by the claims -/

/-- The edge relation of a structure, read directly off the edge list. -/
def ERel {D : Type} (s : DAGStructure D) (u v : String) : Prop :=
  DAGEdge.mk u v ∈ s.edges

instance {D : Type} (s : DAGStructure D) (u v : String) :
    Decidable (ERel s u v) := by
  unfold ERel; infer_instance

/-- A structure is acyclic when no node reaches itself through a nonempty
chain of edges. -/
def Acyclic {D : Type} (s : DAGStructure D) : Prop :=
  ∀ v, ¬ Relation.TransGen (ERel s) v v

/-- Well-formed interchange structures: distinct node ids, distinct edges,
and no dangling edge endpoints. -/
def WFStructure {D : Type} (s : DAGStructure D) : Prop :=
  (s.nodes.map (·.id)).Nodup ∧ s.edges.Nodup ∧
  ∀ e ∈ s.edges, e.«from» ∈ s.nodes.map (·.id) ∧ e.«to» ∈ s.nodes.map (·.id)

instance {D : Type} [DecidableEq D] (s : DAGStructure D) :
    Decidable (WFStructure s) := by
  unfold WFStructure; infer_instance

/-! ### Invariants used by the verification -/

/-- Number of edges into `v` whose source is not yet in `R` (the key
quantity tracked by Kahn's in-degree map). -/
def inCountFrom {D : Type} (s : DAGStructure D) (R : List String) (v : String) : Nat :=
  (s.edges.filter (fun e => e.«to» = v ∧ e.«from» ∉ R)).length

/-- What holds of the final result list of Kahn's loop. -/
def KahnPost {D : Type} (s : DAGStructure D) (R : List String) : Prop :=
  R.Nodup ∧ (∀ x ∈ R, x ∈ s.nodes.map (·.id)) ∧
  (∀ v ∈ s.nodes.map (·.id), (v ∈ R ↔ inCountFrom s R v = 0)) ∧
  (∀ i v, R.get? i = some v → ∀ e ∈ s.edges, e.«to» = v → e.«from» ∈ R.take i)

/-- Loop invariant of Kahn's algorithm (between iterations). -/
def KahnInv {D : Type} (s : DAGStructure D) (inDeg : AList Int)
    (queue R : List String) : Prop :=
  R.Nodup ∧ queue.Nodup ∧ (∀ x ∈ queue, x ∉ R) ∧
  (∀ x ∈ queue, x ∈ s.nodes.map (·.id)) ∧ (∀ x ∈ R, x ∈ s.nodes.map (·.id)) ∧
  (∀ v ∈ s.nodes.map (·.id),
    lookupA inDeg v = some ((inCountFrom s R v : Nat) : Int)) ∧
  (∀ v ∈ s.nodes.map (·.id), ((v ∈ queue ∨ v ∈ R) ↔ inCountFrom s R v = 0)) ∧
  (∀ i v, R.get? i = some v → ∀ e ∈ s.edges, e.«to» = v → e.«from» ∈ R.take i) ∧
  (∀ x ∈ queue, ∀ e ∈ s.edges, e.«to» = x → e.«from» ∈ R)

/-- A closed nonempty edge walk staying inside the node predicate `B`. -/
def CycleWithin {D : Type} (s : DAGStructure D) (B : String → Prop) : Prop :=
  ∃ v l, l ≠ [] ∧ List.Chain (ERel s) v l ∧ l.getLast? = some v ∧
    B v ∧ ∀ x ∈ l, B x

/-- The black set of the cycle-detecting DFS: visited and off the stack. -/
def FCSt.Black (st : FCSt) (v : String) : Prop :=
  v ∈ st.visited ∧ v ∉ st.recStack

/-- Global invariant of the cycle-detecting DFS, relative to structure `s`:
the stack is visited, the black set is closed under edges, and no closed
walk lies inside the black set. -/
def FCInv {D : Type} (s : DAGStructure D) (st : FCSt) : Prop :=
  st.visited.Nodup ∧
  (∀ x ∈ st.visited, x ∈ s.nodes.map (·.id)) ∧
  (∀ x ∈ st.recStack, x ∈ st.visited) ∧
  (∀ v, st.Black v → ∀ c, ERel s v c → st.Black c) ∧
  ¬ CycleWithin s st.Black

/-! ### Concrete sample inputs used by witnesses and counterexamples -/

/-- A store holding the single node `a`. -/
def exStore : DAG Nat := DAG.addNode DAG.empty ⟨"a", some 0⟩

/-- Two nodes sharing the id `a` with different payloads. -/
def exDupNodes : DAGStructure Nat := ⟨[⟨"a", some 1⟩, ⟨"a", some 2⟩], []⟩

/-- Two payload-free nodes sharing the id `a`. -/
def exDupIds : DAGStructure Nat := ⟨[⟨"a", none⟩, ⟨"a", none⟩], []⟩

/-- A single node with one incoming edge whose source names no node. -/
def exDangling : DAGStructure Nat := ⟨[⟨"a", none⟩], [⟨"z", "a"⟩]⟩

/-- The diamond target of the spec's matcher round-trip property. -/
def exDiamondTarget : DAGStructure Nat :=
  ⟨[⟨"a", none⟩, ⟨"b", none⟩, ⟨"c", none⟩, ⟨"d", none⟩],
   [⟨"a", "b"⟩, ⟨"a", "c"⟩, ⟨"b", "d"⟩, ⟨"c", "d"⟩]⟩

/-- The one-edge pattern of the spec's matcher round-trip property. -/
def exEdgePattern : DAGStructure Nat :=
  ⟨[⟨"p", none⟩, ⟨"q", none⟩], [⟨"p", "q"⟩]⟩

/-- A pattern with two nodes sharing one id (crashes the matcher). -/
def exDupPattern : DAGStructure Nat := ⟨[⟨"a", none⟩, ⟨"a", none⟩], []⟩

/-- A two-node target with no edges. -/
def exTwoTarget : DAGStructure Nat := ⟨[⟨"t", none⟩, ⟨"u", none⟩], []⟩

/-- A one-node pattern with a self-loop. -/
def exLoopPattern : DAGStructure Nat := ⟨[⟨"p", none⟩], [⟨"p", "p"⟩]⟩

/-- A two-node cycle target (each node has in- and out-degree one). -/
def exCycleTarget : DAGStructure Nat :=
  ⟨[⟨"t", none⟩, ⟨"u", none⟩], [⟨"t", "u"⟩, ⟨"u", "t"⟩]⟩

/-- A two-node path target matching `exEdgePattern`. -/
def exPathTarget : DAGStructure Nat :=
  ⟨[⟨"x", none⟩, ⟨"y", none⟩], [⟨"x", "y"⟩]⟩

/-- The repository's five-node sample DAG (diamond plus tail). -/
def exSample : DAGStructure Nat :=
  ⟨[⟨"a", some 1⟩, ⟨"b", some 2⟩, ⟨"c", some 3⟩, ⟨"d", some 4⟩, ⟨"e", some 5⟩],
   [⟨"a", "b"⟩, ⟨"a", "c"⟩, ⟨"b", "d"⟩, ⟨"c", "d"⟩, ⟨"d", "e"⟩]⟩

/-! ## Lemmas about the map and set models -/

theorem keysA_cons {β : Type} (p : String × β) (m : AList β) :
    keysA (p :: m) = p.1 :: keysA m := rfl

theorem lookupA_cons {β : Type} (p : String × β) (m : AList β) (k : String) :
    lookupA (p :: m) k = if p.1 = k then some p.2 else lookupA m k := by
  cases p; rfl

theorem lookupA_setA {β : Type} (m : AList β) (k : String) (v : β) (k' : String) :
    lookupA (setA m k v) k' = if k = k' then some v else lookupA m k' := by
  induction m with
  | nil =>
    simp [setA, lookupA]
  | cons p rest ih =>
    obtain ⟨a, b⟩ := p
    by_cases h : a = k
    · subst h
      by_cases h2 : a = k'
      · subst h2; simp [setA, lookupA]
      · simp [setA, lookupA, h2]
    · have h' : ¬ (k = a) := fun hh => h hh.symm
      by_cases h2 : a = k'
      · subst h2
        simp [setA, h, lookupA, h']
      · simp [setA, h, lookupA, h2, ih]

theorem mem_keysA {β : Type} (m : AList β) (k : String) :
    k ∈ keysA m ↔ ∃ v, (k, v) ∈ m := by
  simp only [keysA, List.mem_map]
  constructor
  · rintro ⟨⟨a, b⟩, hm, rfl⟩; exact ⟨b, hm⟩
  · rintro ⟨v, hv⟩; exact ⟨(k, v), hv, rfl⟩

theorem lookupA_isSome_iff {β : Type} (m : AList β) (k : String) :
    (lookupA m k).isSome = true ↔ k ∈ keysA m := by
  induction m with
  | nil => simp [lookupA, keysA]
  | cons p rest ih =>
    obtain ⟨a, b⟩ := p
    by_cases h : a = k
    · subst h; simp [lookupA, keysA_cons]
    · have h' : ¬ (k = a) := fun hh => h hh.symm
      simp [lookupA, h, keysA_cons, h', ih]

theorem lookupA_eq_none_iff {β : Type} (m : AList β) (k : String) :
    lookupA m k = none ↔ k ∉ keysA m := by
  rw [← lookupA_isSome_iff]
  cases lookupA m k <;> simp

theorem hasA_iff_mem {β : Type} (m : AList β) (k : String) :
    hasA m k = true ↔ k ∈ keysA m := by
  rw [hasA, lookupA_isSome_iff]

theorem keysA_setA_of_mem {β : Type} {m : AList β} {k : String} (v : β)
    (h : k ∈ keysA m) : keysA (setA m k v) = keysA m := by
  induction m with
  | nil => simp [keysA] at h
  | cons p rest ih =>
    obtain ⟨a, b⟩ := p
    by_cases hk : a = k
    · subst hk; simp [setA, keysA_cons]
    · rw [keysA_cons] at h
      rcases List.mem_cons.mp h with h1 | h1
      · exact absurd h1.symm hk
      · simp [setA, hk, keysA_cons, ih h1]

theorem keysA_setA_of_not_mem {β : Type} {m : AList β} {k : String} (v : β)
    (h : k ∉ keysA m) : keysA (setA m k v) = keysA m ++ [k] := by
  induction m with
  | nil => simp [setA, keysA]
  | cons p rest ih =>
    obtain ⟨a, b⟩ := p
    rw [keysA_cons] at h
    have h2 : k ∉ keysA rest := fun hh => h (List.mem_cons_of_mem _ hh)
    have hk : a ≠ k := fun hh => h (by rw [hh]; exact List.mem_cons_self _ _)
    simp [setA, hk, keysA_cons, ih h2]

theorem lookupA_delA {β : Type} (m : AList β) (k k' : String) :
    lookupA (delA m k) k' = if k' = k then none else lookupA m k' := by
  induction m with
  | nil => simp [delA, lookupA]
  | cons p rest ih =>
    obtain ⟨a, b⟩ := p
    by_cases ha : a = k
    · subst ha
      by_cases h2 : k' = a
      · subst h2; simp [delA, ih]
      · have : ¬ (a = k') := fun hh => h2 hh.symm
        simp [delA, lookupA, ih, h2, this]
    · by_cases h2 : a = k'
      · subst h2
        simp [delA, ha, lookupA]
      · simp [delA, ha, lookupA, h2, ih]

theorem keysA_delA {β : Type} (m : AList β) (k : String) :
    keysA (delA m k) = (keysA m).filter (fun x => x ≠ k) := by
  induction m with
  | nil => rfl
  | cons p rest ih =>
    obtain ⟨a, b⟩ := p
    by_cases h : a = k <;>
      simp [delA, keysA_cons, List.filter_cons, h, ih]

theorem mem_addS {s : List String} {x y : String} :
    y ∈ addS s x ↔ y ∈ s ∨ y = x := by
  unfold addS
  by_cases h : x ∈ s
  · simp only [if_pos h]
    constructor
    · exact Or.inl
    · rintro (hy | rfl) <;> [exact hy; exact h]
  · simp [if_neg h]

theorem nodup_addS {s : List String} (x : String) (h : s.Nodup) :
    (addS s x).Nodup := by
  unfold addS
  by_cases hx : x ∈ s
  · simpa [hx]
  · rw [if_neg hx, List.nodup_append]
    refine ⟨h, List.nodup_singleton x, ?_⟩
    intro a ha hb
    rw [List.mem_singleton] at hb
    subst hb; exact hx ha

theorem mem_delS {s : List String} {x y : String} :
    y ∈ delS s x ↔ y ∈ s ∧ y ≠ x := by
  induction s with
  | nil => simp [delS]
  | cons a rest ih =>
    by_cases h : a = x
    · subst h
      rw [show delS (a :: rest) a = delS rest a by simp [delS]]
      rw [ih, List.mem_cons]
      constructor
      · rintro ⟨h1, h2⟩; exact ⟨Or.inr h1, h2⟩
      · rintro ⟨h1 | h1, h2⟩
        · exact absurd h1 h2
        · exact ⟨h1, h2⟩
    · rw [show delS (a :: rest) x = a :: delS rest x by simp [delS, h]]
      rw [List.mem_cons, List.mem_cons, ih]
      constructor
      · rintro (rfl | ⟨h1, h2⟩)
        · exact ⟨Or.inl rfl, h⟩
        · exact ⟨Or.inr h1, h2⟩
      · rintro ⟨h1 | h1, h2⟩
        · exact Or.inl h1
        · exact Or.inr ⟨h1, h2⟩

theorem mem_of_lookupA_eq_some {β : Type} {m : AList β} {k : String} {v : β}
    (h : lookupA m k = some v) : (k, v) ∈ m := by
  induction m with
  | nil => simp [lookupA] at h
  | cons p rest ih =>
    obtain ⟨a, b⟩ := p
    by_cases hk : a = k
    · subst hk
      simp [lookupA] at h
      simp [h]
    · simp [lookupA, hk] at h
      exact List.mem_cons_of_mem _ (ih h)

theorem lookupA_eq_some_of_mem_nodup {β : Type} {m : AList β} {k : String} {v : β}
    (hn : (keysA m).Nodup) (h : (k, v) ∈ m) : lookupA m k = some v := by
  induction m with
  | nil => simp at h
  | cons p rest ih =>
    obtain ⟨a, b⟩ := p
    rw [keysA_cons, List.nodup_cons] at hn
    rcases List.mem_cons.mp h with h1 | h1
    · cases h1
      simp [lookupA]
    · have hk : a ≠ k := by
        rintro rfl
        exact hn.1 ((mem_keysA rest a).mpr ⟨v, h1⟩)
      simp [lookupA, hk]
      exact ih hn.2 h1

theorem lookupA_append {β : Type} (m m' : AList β) (k : String) :
    lookupA (m ++ m') k =
      match lookupA m k with
      | some v => some v
      | none => lookupA m' k := by
  induction m with
  | nil => simp [lookupA]
  | cons p rest ih =>
    obtain ⟨a, b⟩ := p
    by_cases h : a = k <;> simp [lookupA, h, ih]

/-! ## Graph store lemmas -/

theorem setA_of_not_mem {β : Type} {m : AList β} {k : String} (v : β)
    (h : k ∉ keysA m) : setA m k v = m ++ [(k, v)] := by
  induction m with
  | nil => simp [setA]
  | cons p rest ih =>
    obtain ⟨a, b⟩ := p
    rw [keysA_cons] at h
    have h2 : k ∉ keysA rest := fun hh => h (List.mem_cons_of_mem _ hh)
    have hk : a ≠ k := fun hh => h (by rw [hh]; exact List.mem_cons_self _ _)
    simp [setA, hk, ih h2]

theorem hasA_eq_false_iff {β : Type} (m : AList β) (k : String) :
    hasA m k = false ↔ k ∉ keysA m := by
  rw [← hasA_iff_mem]
  cases hasA m k <;> simp

/-- Membership form of the store invariant. -/
theorem wf_iff {D : Type} (g : DAG D) :
    g.Wf ↔ ∀ k, (k ∈ keysA g.nodeMap ↔ k ∈ keysA g.outgoingEdges) ∧
      (k ∈ keysA g.nodeMap ↔ k ∈ keysA g.incomingEdges) := by
  unfold DAG.Wf
  constructor
  · rintro ⟨h1, h2, h3, h4⟩ k
    exact ⟨⟨h1 k, h2 k⟩, ⟨h3 k, h4 k⟩⟩
  · intro h
    exact ⟨fun k hk => ((h k).1).mp hk, fun k hk => ((h k).1).mpr hk,
           fun k hk => ((h k).2).mp hk, fun k hk => ((h k).2).mpr hk⟩

theorem wf_empty {D : Type} : (DAG.empty (D := D)).Wf := by
  rw [wf_iff]
  intro k
  simp [DAG.empty, keysA]

theorem wf_clear {D : Type} (g : DAG D) : g.clear.Wf := by
  rw [wf_iff]
  intro k
  simp [DAG.clear, keysA]

theorem wf_addNode {D : Type} {g : DAG D} (n : DAGNode D) (h : g.Wf) :
    (g.addNode n).Wf := by
  rw [wf_iff] at h ⊢
  intro k
  unfold DAG.addNode
  by_cases hm : n.id ∈ keysA g.nodeMap
  · have ho : hasA g.outgoingEdges n.id = true :=
      (hasA_iff_mem _ _).mpr (((h n.id).1).mp hm)
    have hi : hasA g.incomingEdges n.id = true :=
      (hasA_iff_mem _ _).mpr (((h n.id).2).mp hm)
    simp only [ho, hi, if_true]
    simpa [keysA_setA_of_mem _ hm] using h k
  · have ho : n.id ∉ keysA g.outgoingEdges := fun hh => hm (((h n.id).1).mpr hh)
    have hi : n.id ∉ keysA g.incomingEdges := fun hh => hm (((h n.id).2).mpr hh)
    have ho' : hasA g.outgoingEdges n.id = false := (hasA_eq_false_iff _ _).mpr ho
    have hi' : hasA g.incomingEdges n.id = false := (hasA_eq_false_iff _ _).mpr hi
    simp only [ho', hi', Bool.false_eq_true, if_false]
    rw [keysA_setA_of_not_mem _ hm, keysA_setA_of_not_mem _ ho,
        keysA_setA_of_not_mem _ hi]
    simp only [List.mem_append, List.mem_singleton]
    constructor
    · constructor
      · rintro (hk | rfl)
        · exact Or.inl (((h k).1).mp hk)
        · exact Or.inr rfl
      · rintro (hk | rfl)
        · exact Or.inl (((h k).1).mpr hk)
        · exact Or.inr rfl
    · constructor
      · rintro (hk | rfl)
        · exact Or.inl (((h k).2).mp hk)
        · exact Or.inr rfl
      · rintro (hk | rfl)
        · exact Or.inl (((h k).2).mpr hk)
        · exact Or.inr rfl

theorem addEdge_nodeMap {D : Type} (g : DAG D) (src dst : String) :
    (g.addEdge src dst).nodeMap = g.nodeMap := rfl

theorem addEdge_keys_out {D : Type} (g : DAG D) (src dst : String) :
    keysA (g.addEdge src dst).outgoingEdges = keysA g.outgoingEdges := by
  unfold DAG.addEdge
  cases hl : lookupA g.outgoingEdges src with
  | none => rfl
  | some s =>
    have : src ∈ keysA g.outgoingEdges := by
      rw [← lookupA_isSome_iff, hl]; rfl
    simp [keysA_setA_of_mem _ this]

theorem addEdge_keys_in {D : Type} (g : DAG D) (src dst : String) :
    keysA (g.addEdge src dst).incomingEdges = keysA g.incomingEdges := by
  unfold DAG.addEdge
  cases hl : lookupA g.incomingEdges dst with
  | none => rfl
  | some s =>
    have : dst ∈ keysA g.incomingEdges := by
      rw [← lookupA_isSome_iff, hl]; rfl
    simp [keysA_setA_of_mem _ this]

theorem wf_addEdge {D : Type} {g : DAG D} (src dst : String) (h : g.Wf) :
    (g.addEdge src dst).Wf := by
  rw [wf_iff] at h ⊢
  intro k
  rw [addEdge_nodeMap, addEdge_keys_out, addEdge_keys_in]
  exact h k

theorem keysA_map_snd {β γ : Type} (m : AList β) (f : String × β → γ) :
    keysA (m.map (fun p => (p.1, f p))) = keysA m := by
  induction m with
  | nil => rfl
  | cons p rest ih => simp [keysA_cons, ih, keysA]

theorem wf_removeNode {D : Type} {g : DAG D} (id : String) (h : g.Wf) :
    (g.removeNode id).Wf := by
  rw [wf_iff] at h ⊢
  intro k
  unfold DAG.removeNode
  simp only [keysA_map_snd, keysA_delA, List.mem_filter, decide_eq_true_eq]
  constructor
  · constructor
    · rintro ⟨hk, hne⟩; exact ⟨((h k).1).mp hk, hne⟩
    · rintro ⟨hk, hne⟩; exact ⟨((h k).1).mpr hk, hne⟩
  · constructor
    · rintro ⟨hk, hne⟩; exact ⟨((h k).2).mp hk, hne⟩
    · rintro ⟨hk, hne⟩; exact ⟨((h k).2).mpr hk, hne⟩

theorem wf_foldl {D α : Type} (step : DAG D → α → DAG D)
    (hstep : ∀ g a, g.Wf → (step g a).Wf) :
    ∀ (l : List α) (g : DAG D), g.Wf → (l.foldl step g).Wf := by
  intro l
  induction l with
  | nil => intro g hg; exact hg
  | cons a rest ih => intro g hg; exact ih _ (hstep g a hg)

theorem wf_load {D : Type} {g : DAG D} (s : DAGStructure D) : (g.load s).Wf := by
  unfold DAG.load
  exact wf_foldl _ (fun g e h => wf_addEdge _ _ h) _ _
    (wf_foldl _ (fun g n h => wf_addNode _ h) _ _ (wf_clear g))

theorem wf_applyOp {D : Type} (g : DAG D) (op : StoreOp D) (h : g.Wf) :
    (applyOp g op).Wf := by
  cases op with
  | addNode n => exact wf_addNode n h
  | addEdge src dst => exact wf_addEdge src dst h
  | removeNode id => exact wf_removeNode id h
  | load s => exact wf_load s
  | clear => exact wf_clear g

/-! ## Characterizing `load` and `toStructure` -/

theorem DAGEdge.eta (e : DAGEdge) : DAGEdge.mk e.«from» e.«to» = e := rfl

theorem load_eq {D : Type} (g : DAG D) (s : DAGStructure D) :
    DAG.load g s =
      s.edges.foldl (fun a e => a.addEdge e.«from» e.«to»)
        (s.nodes.foldl (fun a n => a.addNode n) g.clear) := rfl

theorem addNode_fresh {D : Type} (g : DAG D) (n : DAGNode D)
    (h1 : n.id ∉ keysA g.nodeMap) (h2 : n.id ∉ keysA g.outgoingEdges)
    (h3 : n.id ∉ keysA g.incomingEdges) :
    g.addNode n =
      ⟨g.nodeMap ++ [(n.id, n)], g.outgoingEdges ++ [(n.id, [])],
       g.incomingEdges ++ [(n.id, [])]⟩ := by
  unfold DAG.addNode
  rw [(hasA_eq_false_iff _ _).mpr h2, (hasA_eq_false_iff _ _).mpr h3]
  simp [setA_of_not_mem _ h1, setA_of_not_mem _ h2, setA_of_not_mem _ h3]

theorem foldl_addNode {D : Type} (ns : List (DAGNode D)) (g : DAG D)
    (hn : (ns.map (·.id)).Nodup)
    (hfresh : ∀ n ∈ ns, n.id ∉ keysA g.nodeMap ∧ n.id ∉ keysA g.outgoingEdges ∧
      n.id ∉ keysA g.incomingEdges) :
    ns.foldl (fun a n => a.addNode n) g =
      ⟨g.nodeMap ++ ns.map (fun n => (n.id, n)),
       g.outgoingEdges ++ ns.map (fun n => (n.id, ([] : List String))),
       g.incomingEdges ++ ns.map (fun n => (n.id, ([] : List String)))⟩ := by
  induction ns generalizing g with
  | nil => cases g; simp
  | cons n rest ih =>
    obtain ⟨h1, h2, h3⟩ := hfresh n (List.mem_cons_self _ _)
    rw [List.map_cons, List.nodup_cons] at hn
    rw [List.foldl_cons, addNode_fresh g n h1 h2 h3, ih _ hn.2]
    · simp
    · intro m hm
      have hmne : m.id ≠ n.id := by
        intro hh
        exact hn.1 (hh ▸ List.mem_map_of_mem (·.id) hm)
      obtain ⟨g1, g2, g3⟩ := hfresh m (List.mem_cons_of_mem _ hm)
      refine ⟨?_, ?_, ?_⟩ <;>
        · simp only [keysA, List.map_append, List.mem_append]
          rintro (hk | hk)
          · first
              | exact g1 hk
              | exact g2 hk
              | exact g3 hk
          · simp at hk
            exact hmne hk

theorem foldl_addEdge_nodeMap {D : Type} (es : List DAGEdge) (g : DAG D) :
    (es.foldl (fun a e => a.addEdge e.«from» e.«to») g).nodeMap = g.nodeMap := by
  induction es generalizing g with
  | nil => rfl
  | cons e rest ih => rw [List.foldl_cons, ih, addEdge_nodeMap]

theorem foldl_addEdge_keys_out {D : Type} (es : List DAGEdge) (g : DAG D) :
    keysA (es.foldl (fun a e => a.addEdge e.«from» e.«to») g).outgoingEdges =
      keysA g.outgoingEdges := by
  induction es generalizing g with
  | nil => rfl
  | cons e rest ih => rw [List.foldl_cons, ih, addEdge_keys_out]

theorem foldl_addEdge_keys_in {D : Type} (es : List DAGEdge) (g : DAG D) :
    keysA (es.foldl (fun a e => a.addEdge e.«from» e.«to») g).incomingEdges =
      keysA g.incomingEdges := by
  induction es generalizing g with
  | nil => rfl
  | cons e rest ih => rw [List.foldl_cons, ih, addEdge_keys_in]

theorem addEdge_mem_out {D : Type} (g : DAG D) (src dst u v : String) :
    (∃ ts, lookupA (g.addEdge src dst).outgoingEdges u = some ts ∧ v ∈ ts) ↔
      ((∃ ts, lookupA g.outgoingEdges u = some ts ∧ v ∈ ts) ∨
        (u = src ∧ v = dst ∧ src ∈ keysA g.outgoingEdges)) := by
  unfold DAG.addEdge
  cases hl : lookupA g.outgoingEdges src with
  | none =>
    have hk : src ∉ keysA g.outgoingEdges := (lookupA_eq_none_iff _ _).mp hl
    constructor
    · intro h; exact Or.inl h
    · rintro (h | ⟨rfl, rfl, hmem⟩)
      · exact h
      · exact absurd hmem hk
  | some sOld =>
    have hk : src ∈ keysA g.outgoingEdges := by
      rw [← lookupA_isSome_iff, hl]; rfl
    by_cases hu : u = src
    · subst hu
      constructor
      · rintro ⟨ts, hts, hv⟩
        rw [lookupA_setA, if_pos rfl] at hts
        cases hts
        rcases mem_addS.mp hv with hv | rfl
        · exact Or.inl ⟨sOld, hl, hv⟩
        · exact Or.inr ⟨rfl, rfl, hk⟩
      · rintro (⟨ts, hts, hv⟩ | ⟨-, rfl, -⟩)
        · rw [hl] at hts
          cases hts
          exact ⟨_, by rw [lookupA_setA, if_pos rfl], mem_addS.mpr (Or.inl hv)⟩
        · exact ⟨_, by rw [lookupA_setA, if_pos rfl], mem_addS.mpr (Or.inr rfl)⟩
    · have hsu : ¬ (src = u) := fun hh => hu hh.symm
      constructor
      · rintro ⟨ts, hts, hv⟩
        rw [lookupA_setA, if_neg hsu] at hts
        exact Or.inl ⟨ts, hts, hv⟩
      · rintro (⟨ts, hts, hv⟩ | ⟨hh, -, -⟩)
        · exact ⟨ts, by rw [lookupA_setA, if_neg hsu]; exact hts, hv⟩
        · exact absurd hh hu

theorem foldl_addEdge_mem_out {D : Type} (es : List DAGEdge) (g : DAG D)
    (u v : String) :
    (∃ ts, lookupA ((es.foldl (fun a e => a.addEdge e.«from» e.«to») g).outgoingEdges)
        u = some ts ∧ v ∈ ts) ↔
      ((∃ ts, lookupA g.outgoingEdges u = some ts ∧ v ∈ ts) ∨
        (DAGEdge.mk u v ∈ es ∧ u ∈ keysA g.outgoingEdges)) := by
  induction es generalizing g with
  | nil => simp
  | cons e rest ih =>
    rw [List.foldl_cons, ih, addEdge_mem_out, addEdge_keys_out]
    constructor
    · rintro ((h | ⟨rfl, rfl, hk⟩) | ⟨hmem, hk⟩)
      · exact Or.inl h
      · exact Or.inr ⟨by rw [DAGEdge.eta]; exact List.mem_cons_self _ _, hk⟩
      · exact Or.inr ⟨List.mem_cons_of_mem _ hmem, hk⟩
    · rintro (h | ⟨hmem, hk⟩)
      · exact Or.inl (Or.inl h)
      · rcases List.mem_cons.mp hmem with hh | hh
        · refine Or.inl (Or.inr ?_)
          have h1 : u = e.«from» := by rw [← hh]
          have h2 : v = e.«to» := by rw [← hh]
          exact ⟨h1, h2, h1 ▸ hk⟩
        · exact Or.inr ⟨hh, hk⟩

theorem addEdge_out_nodup {D : Type} {g : DAG D} (src dst : String)
    (h : ∀ u ts, lookupA g.outgoingEdges u = some ts → ts.Nodup) :
    ∀ u ts, lookupA (g.addEdge src dst).outgoingEdges u = some ts → ts.Nodup := by
  intro u ts
  unfold DAG.addEdge
  cases hl : lookupA g.outgoingEdges src with
  | none => exact h u ts
  | some sOld =>
    intro hts
    rw [lookupA_setA] at hts
    by_cases hsu : src = u
    · rw [if_pos hsu] at hts
      cases hts
      exact nodup_addS _ (h src sOld hl)
    · rw [if_neg hsu] at hts
      exact h u ts hts

theorem foldl_addEdge_out_nodup {D : Type} (es : List DAGEdge) (g : DAG D)
    (h : ∀ u ts, lookupA g.outgoingEdges u = some ts → ts.Nodup) :
    ∀ u ts, lookupA ((es.foldl (fun a e => a.addEdge e.«from» e.«to») g).outgoingEdges)
      u = some ts → ts.Nodup := by
  induction es generalizing g with
  | nil => exact h
  | cons e rest ih =>
    rw [List.foldl_cons]
    exact ih _ (addEdge_out_nodup _ _ h)

theorem lookupA_map_const {D : Type} {β : Type} (ns : List (DAGNode D)) (c : β)
    (u : String) {ts : β}
    (h : lookupA (ns.map (fun n => (n.id, c))) u = some ts) : ts = c := by
  induction ns with
  | nil => simp [lookupA] at h
  | cons n rest ih =>
    rw [List.map_cons, lookupA_cons] at h
    by_cases hu : n.id = u
    · rw [if_pos hu] at h; cases h; rfl
    · rw [if_neg hu] at h; exact ih h

theorem keysA_map_nodes {D : Type} {β : Type} (ns : List (DAGNode D))
    (f : DAGNode D → β) :
    keysA (ns.map (fun n => (n.id, f n))) = ns.map (·.id) := by
  induction ns with
  | nil => rfl
  | cons n rest ih => simp only [List.map_cons, keysA_cons, ih]

theorem load_nodeMap {D : Type} (s : DAGStructure D)
    (hn : (s.nodes.map (·.id)).Nodup) :
    (DAG.load DAG.empty s).nodeMap = s.nodes.map (fun n => (n.id, n)) := by
  rw [load_eq, foldl_addEdge_nodeMap,
    foldl_addNode _ _ hn (by intro n _; simp [DAG.empty, DAG.clear, keysA])]
  simp [DAG.clear]

theorem load_out_base {D : Type} (s : DAGStructure D)
    (hn : (s.nodes.map (·.id)).Nodup) :
    (s.nodes.foldl (fun a n => a.addNode n) (DAG.empty (D := D)).clear).outgoingEdges =
      s.nodes.map (fun n => (n.id, ([] : List String))) := by
  rw [foldl_addNode _ _ hn (by intro n _; simp [DAG.empty, DAG.clear, keysA])]
  simp [DAG.clear]

theorem load_keys_out {D : Type} (s : DAGStructure D)
    (hn : (s.nodes.map (·.id)).Nodup) :
    keysA (DAG.load DAG.empty s).outgoingEdges = s.nodes.map (·.id) := by
  rw [load_eq, foldl_addEdge_keys_out, load_out_base s hn, keysA_map_nodes]

theorem load_mem_out {D : Type} (s : DAGStructure D)
    (hn : (s.nodes.map (·.id)).Nodup) (u v : String) :
    (∃ ts, lookupA (DAG.load DAG.empty s).outgoingEdges u = some ts ∧ v ∈ ts) ↔
      (DAGEdge.mk u v ∈ s.edges ∧ u ∈ s.nodes.map (·.id)) := by
  rw [load_eq, foldl_addEdge_mem_out, load_out_base s hn, keysA_map_nodes]
  constructor
  · rintro (⟨ts, hts, hv⟩ | h)
    · rw [lookupA_map_const s.nodes _ u hts] at hv
      simp at hv
    · exact h
  · exact Or.inr

theorem load_getChildren {D : Type} (s : DAGStructure D)
    (hn : (s.nodes.map (·.id)).Nodup)
    (hd : ∀ e ∈ s.edges, e.«from» ∈ s.nodes.map (·.id) ∧ e.«to» ∈ s.nodes.map (·.id))
    (u v : String) :
    v ∈ (DAG.load DAG.empty s).getChildren u ↔ DAGEdge.mk u v ∈ s.edges := by
  unfold DAG.getChildren
  cases hl : lookupA (DAG.load DAG.empty s).outgoingEdges u with
  | none =>
    have hk : u ∉ keysA (DAG.load DAG.empty s).outgoingEdges :=
      (lookupA_eq_none_iff _ _).mp hl
    rw [load_keys_out s hn] at hk
    simp only [Option.getD_none, List.not_mem_nil, false_iff]
    intro hmem
    exact hk ((hd _ hmem).1)
  | some ts =>
    simp only [Option.getD_some]
    constructor
    · intro hv
      exact (((load_mem_out s hn u v).mp ⟨ts, hl, hv⟩)).1
    · intro hmem
      obtain ⟨ts2, hts2, hv2⟩ :=
        (load_mem_out s hn u v).mpr ⟨hmem, (hd _ hmem).1⟩
      rw [hl] at hts2
      cases hts2
      exact hv2

theorem load_getChildren_nodup {D : Type} (s : DAGStructure D)
    (hn : (s.nodes.map (·.id)).Nodup) (u : String) :
    ((DAG.load DAG.empty s).getChildren u).Nodup := by
  unfold DAG.getChildren
  cases hl : lookupA (DAG.load DAG.empty s).outgoingEdges u with
  | none => simp
  | some ts =>
    simp only [Option.getD_some]
    refine foldl_addEdge_out_nodup s.edges _ ?_ u ts (by rw [← load_eq]; exact hl)
    intro w ws hws
    rw [load_out_base s hn] at hws
    rw [lookupA_map_const s.nodes _ w hws]
    exact List.nodup_nil

theorem mem_foldl_append {α β : Type} (l : List α) (f : α → List β)
    (init : List β) (x : β) :
    x ∈ l.foldl (fun acc p => acc ++ f p) init ↔ x ∈ init ∨ ∃ p ∈ l, x ∈ f p := by
  induction l generalizing init with
  | nil => simp
  | cons a rest ih =>
    rw [List.foldl_cons, ih]
    simp only [List.mem_append, List.mem_cons]
    constructor
    · rintro ((hx | hx) | ⟨p, hp, hx⟩)
      · exact Or.inl hx
      · exact Or.inr ⟨a, Or.inl rfl, hx⟩
      · exact Or.inr ⟨p, Or.inr hp, hx⟩
    · rintro (hx | ⟨p, rfl | hp, hx⟩)
      · exact Or.inl (Or.inl hx)
      · exact Or.inl (Or.inr hx)
      · exact Or.inr ⟨p, hp, hx⟩

theorem mem_toStructure_edges {D : Type} (g : DAG D) (e : DAGEdge) :
    e ∈ g.toStructure.edges ↔
      ∃ p ∈ g.outgoingEdges, e.«from» = p.1 ∧ e.«to» ∈ p.2 := by
  unfold DAG.toStructure
  rw [mem_foldl_append]
  simp only [List.not_mem_nil, false_or, List.mem_map]
  constructor
  · rintro ⟨p, hp, dst, hdst, rfl⟩
    exact ⟨p, hp, rfl, hdst⟩
  · rintro ⟨p, hp, h1, h2⟩
    refine ⟨p, hp, e.«to», h2, ?_⟩
    rw [← h1, DAGEdge.eta]

/-! ## Claims about the graph store -/

/-- C7: starting from the empty store, every sequence of public operations
keeps the key sets of the node map and of both adjacency maps equal, and
every single operation preserves this invariant. -/
theorem claim_C7 {D : Type} :
    (∀ (g : DAG D) (op : StoreOp D), g.Wf → (applyOp g op).Wf) ∧
    (∀ ops : List (StoreOp D), (runOps ops).Wf) := by
  refine ⟨wf_applyOp, ?_⟩
  intro ops
  unfold runOps
  exact wf_foldl _ wf_applyOp _ _ wf_empty

theorem claim_C7_witness :
    (applyOp (DAG.empty (D := Nat)) StoreOp.clear).Wf ∧
    (runOps (D := Nat)
      [StoreOp.addNode ⟨"a", none⟩, StoreOp.addEdge "a" "a"]).Wf :=
  ⟨(claim_C7 (D := Nat)).1 _ _ (by decide), (claim_C7 (D := Nat)).2 _⟩

/-- C10: re-adding a node whose id is already registered replaces the stored
payload for that id, leaves both adjacency maps exactly unchanged, and
leaves every other node-map entry unchanged. (The hypothesis `g.Wf` holds
in every state reachable through the store's operations, by C7.) -/
theorem claim_C10 {D : Type} (g : DAG D) (n : DAGNode D) (hwf : g.Wf)
    (hreg : hasA g.nodeMap n.id = true) :
    (g.addNode n).outgoingEdges = g.outgoingEdges ∧
    (g.addNode n).incomingEdges = g.incomingEdges ∧
    (g.addNode n).getNode n.id = some n ∧
    ∀ k, k ≠ n.id → (g.addNode n).getNode k = g.getNode k := by
  rw [wf_iff] at hwf
  have hm : n.id ∈ keysA g.nodeMap := (hasA_iff_mem _ _).mp hreg
  have ho : hasA g.outgoingEdges n.id = true :=
    (hasA_iff_mem _ _).mpr (((hwf n.id).1).mp hm)
  have hi : hasA g.incomingEdges n.id = true :=
    (hasA_iff_mem _ _).mpr (((hwf n.id).2).mp hm)
  refine ⟨by simp [DAG.addNode, ho], by simp [DAG.addNode, hi], ?_, ?_⟩
  · simp [DAG.addNode, DAG.getNode, lookupA_setA]
  · intro k hk
    have hne : ¬ (n.id = k) := fun hh => hk hh.symm
    simp [DAG.addNode, DAG.getNode, lookupA_setA, hne]

theorem claim_C10_witness :
    (exStore.addNode ⟨"a", some 1⟩).outgoingEdges = exStore.outgoingEdges ∧
    (exStore.addNode ⟨"a", some 1⟩).incomingEdges = exStore.incomingEdges ∧
    (exStore.addNode ⟨"a", some 1⟩).getNode "a" = some ⟨"a", some 1⟩ :=
  have h := claim_C10 exStore ⟨"a", some 1⟩ (by decide) (by decide)
  ⟨h.1, h.2.1, h.2.2.1⟩

/-- C6 (counterexample): with only `a` registered, `addEdge "a" "z"` is not
a no-op — it inserts `z` into `a`'s outgoing set although `z` is
unregistered, so "either endpoint unregistered ⟹ state unchanged" fails. -/
theorem claim_C6_cex :
    exStore.addEdge "a" "z" ≠ exStore ∧
    hasA exStore.nodeMap "a" = true ∧ hasA exStore.nodeMap "z" = false := by
  decide

/-- C6 (amended): `addEdge from to` never changes the node map; it inserts
`to` into `from`'s outgoing set exactly when `from` is registered and
inserts `from` into `to`'s incoming set exactly when `to` is registered
(each side independently — so with both registered both insertions happen,
and with neither registered it is a no-op); all other adjacency entries are
untouched. -/
theorem claim_C6 {D : Type} (g : DAG D) (src dst : String) (hwf : g.Wf) :
    (g.addEdge src dst).nodeMap = g.nodeMap ∧
    (hasA g.nodeMap src = true →
      lookupA (g.addEdge src dst).outgoingEdges src =
        some (addS ((lookupA g.outgoingEdges src).getD []) dst)) ∧
    (hasA g.nodeMap src = false →
      (g.addEdge src dst).outgoingEdges = g.outgoingEdges) ∧
    (hasA g.nodeMap dst = true →
      lookupA (g.addEdge src dst).incomingEdges dst =
        some (addS ((lookupA g.incomingEdges dst).getD []) src)) ∧
    (hasA g.nodeMap dst = false →
      (g.addEdge src dst).incomingEdges = g.incomingEdges) ∧
    (∀ k, k ≠ src →
      lookupA (g.addEdge src dst).outgoingEdges k = lookupA g.outgoingEdges k) ∧
    (∀ k, k ≠ dst →
      lookupA (g.addEdge src dst).incomingEdges k = lookupA g.incomingEdges k) := by
  rw [wf_iff] at hwf
  refine ⟨rfl, ?_, ?_, ?_, ?_, ?_, ?_⟩
  · intro h
    have hmem : src ∈ keysA g.outgoingEdges :=
      ((hwf src).1).mp ((hasA_iff_mem _ _).mp h)
    obtain ⟨ts, hts⟩ := Option.isSome_iff_exists.mp ((lookupA_isSome_iff _ _).mpr hmem)
    show lookupA
      (match lookupA g.outgoingEdges src with
        | some s => setA g.outgoingEdges src (addS s dst)
        | none => g.outgoingEdges) src = _
    rw [hts]
    simp [lookupA_setA, hts]
  · intro h
    have hmem : src ∉ keysA g.outgoingEdges := by
      intro hk
      exact absurd ((hasA_iff_mem _ _).mpr (((hwf src).1).mpr hk))
        (by rw [h]; simp)
    have hnone : lookupA g.outgoingEdges src = none :=
      (lookupA_eq_none_iff _ _).mpr hmem
    show (match lookupA g.outgoingEdges src with
        | some s => setA g.outgoingEdges src (addS s dst)
        | none => g.outgoingEdges) = _
    rw [hnone]
  · intro h
    have hmem : dst ∈ keysA g.incomingEdges :=
      ((hwf dst).2).mp ((hasA_iff_mem _ _).mp h)
    obtain ⟨ts, hts⟩ := Option.isSome_iff_exists.mp ((lookupA_isSome_iff _ _).mpr hmem)
    show lookupA
      (match lookupA g.incomingEdges dst with
        | some s => setA g.incomingEdges dst (addS s src)
        | none => g.incomingEdges) dst = _
    rw [hts]
    simp [lookupA_setA, hts]
  · intro h
    have hmem : dst ∉ keysA g.incomingEdges := by
      intro hk
      exact absurd ((hasA_iff_mem _ _).mpr (((hwf dst).2).mpr hk))
        (by rw [h]; simp)
    have hnone : lookupA g.incomingEdges dst = none :=
      (lookupA_eq_none_iff _ _).mpr hmem
    show (match lookupA g.incomingEdges dst with
        | some s => setA g.incomingEdges dst (addS s src)
        | none => g.incomingEdges) = _
    rw [hnone]
  · intro k hk
    have hks : ¬ (src = k) := fun hh => hk hh.symm
    show lookupA
      (match lookupA g.outgoingEdges src with
        | some s => setA g.outgoingEdges src (addS s dst)
        | none => g.outgoingEdges) k = _
    cases lookupA g.outgoingEdges src with
    | none => rfl
    | some ts => rw [lookupA_setA, if_neg hks]
  · intro k hk
    have hks : ¬ (dst = k) := fun hh => hk hh.symm
    show lookupA
      (match lookupA g.incomingEdges dst with
        | some s => setA g.incomingEdges dst (addS s src)
        | none => g.incomingEdges) k = _
    cases lookupA g.incomingEdges dst with
    | none => rfl
    | some ts => rw [lookupA_setA, if_neg hks]

theorem claim_C6_witness :
    (exStore.addEdge "a" "z").nodeMap = exStore.nodeMap ∧
    lookupA (exStore.addEdge "a" "z").outgoingEdges "a" =
      some (addS ((lookupA exStore.outgoingEdges "a").getD []) "z") ∧
    (exStore.addEdge "a" "z").incomingEdges = exStore.incomingEdges :=
  have h := claim_C6 exStore "a" "z" (by decide)
  ⟨h.1, h.2.1 (by decide), h.2.2.2.2.1 (by decide)⟩

/-- C9 (counterexample): two nodes with the same id but different payloads:
after `load` then `toStructure` the node `⟨a, 1⟩` is gone (last write won),
so the node sets differ even though the structure has no dangling edges. -/
theorem claim_C9_cex :
    exDupNodes.edges = [] ∧
    (⟨"a", some 1⟩ : DAGNode Nat) ∈ exDupNodes.nodes ∧
    (⟨"a", some 1⟩ : DAGNode Nat) ∉
      (DAG.load DAG.empty exDupNodes).toStructure.nodes := by
  decide

/-- C9 (amended): for structures with distinct node ids and no dangling
edges, `toStructure` after `load` on an empty store returns exactly the
original node list and an edge list with the same members as the original
edge list. -/
theorem claim_C9 {D : Type} (s : DAGStructure D)
    (hn : (s.nodes.map (·.id)).Nodup)
    (hd : ∀ e ∈ s.edges, e.«from» ∈ s.nodes.map (·.id) ∧
      e.«to» ∈ s.nodes.map (·.id)) :
    (DAG.load DAG.empty s).toStructure.nodes = s.nodes ∧
    (∀ e, e ∈ (DAG.load DAG.empty s).toStructure.edges ↔ e ∈ s.edges) := by
  constructor
  · show (DAG.load DAG.empty s).getNodes = s.nodes
    unfold DAG.getNodes
    rw [load_nodeMap s hn, List.map_map]
    have hcomp : ((fun x : String × DAGNode D => x.2) ∘ fun n : DAGNode D => (n.id, n)) = id := rfl
    rw [hcomp, List.map_id]
  · intro e
    rw [mem_toStructure_edges]
    have hknodup : (keysA (DAG.load DAG.empty s).outgoingEdges).Nodup := by
      rw [load_keys_out s hn]; exact hn
    constructor
    · rintro ⟨p, hp, h1, h2⟩
      have hlk : lookupA (DAG.load DAG.empty s).outgoingEdges p.1 = some p.2 :=
        lookupA_eq_some_of_mem_nodup hknodup (by cases p; exact hp)
      have hmm := (load_mem_out s hn p.1 e.«to»).mp ⟨p.2, hlk, h2⟩
      rw [← h1, DAGEdge.eta] at hmm
      exact hmm.1
    · intro hmem
      obtain ⟨ts, hts, hv⟩ := (load_mem_out s hn e.«from» e.«to»).mpr
        ⟨by rw [DAGEdge.eta]; exact hmem, (hd _ hmem).1⟩
      exact ⟨(e.«from», ts), mem_of_lookupA_eq_some hts, rfl, hv⟩

theorem claim_C9_witness :
    (DAG.load DAG.empty exSample).toStructure.nodes = exSample.nodes ∧
    (DAGEdge.mk "a" "b" ∈ (DAG.load DAG.empty exSample).toStructure.edges ↔
      DAGEdge.mk "a" "b" ∈ exSample.edges) :=
  have h := claim_C9 exSample (by decide) (by decide)
  ⟨h.1, h.2 _⟩

/-! ## Adjacency index lemmas -/

theorem lookup_adjInitFold {D : Type} (ns : List (DAGNode D))
    (acc : AList (List String)) (hacc : ∀ k v, lookupA acc k = some v → v = []) :
    ∀ k v, lookupA (ns.foldl (fun m n => setA m n.id []) acc) k = some v →
      v = [] := by
  induction ns generalizing acc with
  | nil => exact hacc
  | cons n rest ih =>
    rw [List.foldl_cons]
    refine ih _ ?_
    intro k v h
    rw [lookupA_setA] at h
    by_cases hk : n.id = k
    · rw [if_pos hk] at h; cases h; rfl
    · rw [if_neg hk] at h; exact hacc k v h

theorem outNbrs_adjInit {D : Type} (s : DAGStructure D) (x : String) :
    outNbrs (adjInit s) x = [] := by
  unfold outNbrs adjInit
  cases hl : lookupA (s.nodes.foldl (fun m n => setA m n.id []) []) x with
  | none => rfl
  | some v =>
    simp only [Option.getD_some]
    exact lookup_adjInitFold s.nodes [] (by intro k v h; cases h) x v hl

theorem inNbrs_adjInit {D : Type} (s : DAGStructure D) (x : String) :
    inNbrs (adjInit s) x = [] := by
  unfold inNbrs adjInit
  cases hl : lookupA (s.nodes.foldl (fun m n => setA m n.id []) []) x with
  | none => rfl
  | some v =>
    simp only [Option.getD_some]
    exact lookup_adjInitFold s.nodes [] (by intro k v h; cases h) x v hl

theorem adjStep_mem_out (nodeIds : List String) (a : Adjacency) (e : DAGEdge)
    (x y : String) :
    y ∈ outNbrs (adjStep nodeIds a e) x ↔
      (y ∈ outNbrs a x ∨
        (x = e.«from» ∧ y = e.«to» ∧ e.«from» ∈ nodeIds ∧ e.«to» ∈ nodeIds)) := by
  unfold adjStep
  by_cases hg : e.«from» ∈ nodeIds ∧ e.«to» ∈ nodeIds
  · rw [if_pos hg]
    show y ∈ (lookupA (setA a.outgoing e.«from»
      (addS ((lookupA a.outgoing e.«from»).getD []) e.«to»)) x).getD [] ↔ _
    rw [lookupA_setA]
    by_cases hx : e.«from» = x
    · rw [if_pos hx, Option.getD_some]
      rw [mem_addS]
      subst hx
      constructor
      · rintro (hy | rfl)
        · exact Or.inl hy
        · exact Or.inr ⟨rfl, rfl, hg.1, hg.2⟩
      · rintro (hy | ⟨-, rfl, -, -⟩)
        · exact Or.inl hy
        · exact Or.inr rfl
    · rw [if_neg hx]
      constructor
      · exact Or.inl
      · rintro (hy | ⟨rfl, -, -, -⟩)
        · exact hy
        · exact absurd rfl hx
  · rw [if_neg hg]
    constructor
    · exact Or.inl
    · rintro (hy | ⟨-, -, h1, h2⟩)
      · exact hy
      · exact absurd ⟨h1, h2⟩ hg

theorem adjStep_mem_in (nodeIds : List String) (a : Adjacency) (e : DAGEdge)
    (x y : String) :
    x ∈ inNbrs (adjStep nodeIds a e) y ↔
      (x ∈ inNbrs a y ∨
        (x = e.«from» ∧ y = e.«to» ∧ e.«from» ∈ nodeIds ∧ e.«to» ∈ nodeIds)) := by
  unfold adjStep
  by_cases hg : e.«from» ∈ nodeIds ∧ e.«to» ∈ nodeIds
  · rw [if_pos hg]
    show x ∈ (lookupA (setA a.incoming e.«to»
      (addS ((lookupA a.incoming e.«to»).getD []) e.«from»)) y).getD [] ↔ _
    rw [lookupA_setA]
    by_cases hy : e.«to» = y
    · rw [if_pos hy, Option.getD_some]
      rw [mem_addS]
      subst hy
      constructor
      · rintro (hx | rfl)
        · exact Or.inl hx
        · exact Or.inr ⟨rfl, rfl, hg.1, hg.2⟩
      · rintro (hx | ⟨rfl, -, -, -⟩)
        · exact Or.inl hx
        · exact Or.inr rfl
    · rw [if_neg hy]
      constructor
      · exact Or.inl
      · rintro (hx | ⟨-, rfl, -, -⟩)
        · exact hx
        · exact absurd rfl hy
  · rw [if_neg hg]
    constructor
    · exact Or.inl
    · rintro (hx | ⟨-, -, h1, h2⟩)
      · exact hx
      · exact absurd ⟨h1, h2⟩ hg

theorem adjFold_mem_out (nodeIds : List String) (es : List DAGEdge)
    (a : Adjacency) (x y : String) :
    y ∈ outNbrs (es.foldl (adjStep nodeIds) a) x ↔
      (y ∈ outNbrs a x ∨ ∃ e ∈ es, x = e.«from» ∧ y = e.«to» ∧
        e.«from» ∈ nodeIds ∧ e.«to» ∈ nodeIds) := by
  induction es generalizing a with
  | nil => simp
  | cons e rest ih =>
    rw [List.foldl_cons, ih, adjStep_mem_out]
    constructor
    · rintro ((hy | hnew) | ⟨e2, he2, h2⟩)
      · exact Or.inl hy
      · exact Or.inr ⟨e, List.mem_cons_self _ _, hnew⟩
      · exact Or.inr ⟨e2, List.mem_cons_of_mem _ he2, h2⟩
    · rintro (hy | ⟨e2, he2, h2⟩)
      · exact Or.inl (Or.inl hy)
      · rcases List.mem_cons.mp he2 with rfl | hmem
        · exact Or.inl (Or.inr h2)
        · exact Or.inr ⟨e2, hmem, h2⟩

theorem adjFold_mem_in (nodeIds : List String) (es : List DAGEdge)
    (a : Adjacency) (x y : String) :
    x ∈ inNbrs (es.foldl (adjStep nodeIds) a) y ↔
      (x ∈ inNbrs a y ∨ ∃ e ∈ es, x = e.«from» ∧ y = e.«to» ∧
        e.«from» ∈ nodeIds ∧ e.«to» ∈ nodeIds) := by
  induction es generalizing a with
  | nil => simp
  | cons e rest ih =>
    rw [List.foldl_cons, ih, adjStep_mem_in]
    constructor
    · rintro ((hy | hnew) | ⟨e2, he2, h2⟩)
      · exact Or.inl hy
      · exact Or.inr ⟨e, List.mem_cons_self _ _, hnew⟩
      · exact Or.inr ⟨e2, List.mem_cons_of_mem _ he2, h2⟩
    · rintro (hy | ⟨e2, he2, h2⟩)
      · exact Or.inl (Or.inl hy)
      · rcases List.mem_cons.mp he2 with rfl | hmem
        · exact Or.inl (Or.inr h2)
        · exact Or.inr ⟨e2, hmem, h2⟩

theorem buildAdjacency_mem_out {D : Type} (s : DAGStructure D) (x y : String) :
    y ∈ outNbrs (buildAdjacency s) x ↔
      (DAGEdge.mk x y ∈ s.edges ∧ x ∈ s.nodes.map (·.id) ∧
        y ∈ s.nodes.map (·.id)) := by
  unfold buildAdjacency
  rw [adjFold_mem_out, outNbrs_adjInit]
  simp only [List.not_mem_nil, false_or]
  constructor
  · rintro ⟨e, he, rfl, rfl, h1, h2⟩
    rw [DAGEdge.eta]
    exact ⟨he, h1, h2⟩
  · rintro ⟨he, h1, h2⟩
    exact ⟨DAGEdge.mk x y, he, rfl, rfl, h1, h2⟩

theorem buildAdjacency_mem_in {D : Type} (s : DAGStructure D) (x y : String) :
    x ∈ inNbrs (buildAdjacency s) y ↔
      (DAGEdge.mk x y ∈ s.edges ∧ x ∈ s.nodes.map (·.id) ∧
        y ∈ s.nodes.map (·.id)) := by
  unfold buildAdjacency
  rw [adjFold_mem_in, inNbrs_adjInit]
  simp only [List.not_mem_nil, false_or]
  constructor
  · rintro ⟨e, he, rfl, rfl, h1, h2⟩
    rw [DAGEdge.eta]
    exact ⟨he, h1, h2⟩
  · rintro ⟨he, h1, h2⟩
    exact ⟨DAGEdge.mk x y, he, rfl, rfl, h1, h2⟩

theorem buildAdjacency_symm {D : Type} (s : DAGStructure D) (x y : String) :
    y ∈ outNbrs (buildAdjacency s) x ↔ x ∈ inNbrs (buildAdjacency s) y := by
  rw [buildAdjacency_mem_out, buildAdjacency_mem_in]

/-! ## Search invariant lemmas -/

theorem lookup_nodesFold {D : Type} (ns : List (DAGNode D))
    (acc : AList (DAGNode D)) (k : String) (n : DAGNode D)
    (h : lookupA (ns.foldl (fun m x => setA m x.id x) acc) k = some n) :
    lookupA acc k = some n ∨ (n ∈ ns ∧ n.id = k) := by
  induction ns generalizing acc with
  | nil => exact Or.inl h
  | cons m rest ih =>
    rw [List.foldl_cons] at h
    rcases ih _ h with h1 | h1
    · rw [lookupA_setA] at h1
      by_cases hk : m.id = k
      · rw [if_pos hk] at h1
        cases h1
        exact Or.inr ⟨List.mem_cons_self _ _, hk⟩
      · rw [if_neg hk] at h1
        exact Or.inl h1
    · exact Or.inr ⟨List.mem_cons_of_mem _ h1.1, h1.2⟩

theorem feasible_elim {D : Type} [DecidableEq D] {P : VF2Ctx D}
    {mapping : AList String} {p t : String}
    (h : feasible P mapping p t = true) :
    dataOK P p t ∧ degreeOK P p t ∧
    (∀ p2 ∈ outNbrs P.pAdj p, ∀ t2, lookupA mapping p2 = some t2 →
      t2 ∈ outNbrs P.tAdj t) ∧
    (∀ p1 ∈ inNbrs P.pAdj p, ∀ t1, lookupA mapping p1 = some t1 →
      t1 ∈ inNbrs P.tAdj t) := by
  unfold feasible at h
  cases hp : lookupA P.pNodeMap p with
  | none => rw [hp] at h; cases h
  | some pn =>
    cases ht : lookupA P.tNodeMap t with
    | none => rw [hp, ht] at h; cases h
    | some tn =>
      rw [hp, ht] at h
      simp only [Bool.and_eq_true] at h
      obtain ⟨⟨⟨hdata, hdeg⟩, hout⟩, hin⟩ := h
      refine ⟨⟨pn, tn, hp, ht, ?_⟩, ?_, ?_, ?_⟩
      · simpa [dataMatches] using hdata
      · obtain ⟨⟨h1, h2⟩, h3⟩ := hdeg
        refine ⟨?_, ?_, ?_⟩
        · intro hz
          rw [if_pos hz] at h1
          exact of_decide_eq_true h1
        · intro hz
          rw [if_pos hz] at h2
          exact of_decide_eq_true h2
        · intro hz1 hz2
          rw [if_pos ⟨hz1, hz2⟩] at h3
          exact of_decide_eq_true h3
      · intro p2 hp2 t2 ht2
        rw [List.all_eq_true] at hout
        have hx := hout p2 hp2
        rw [ht2] at hx
        simpa using hx
      · intro p1 hp1 t1 ht1
        rw [List.all_eq_true] at hin
        have hx := hin p1 hp1
        rw [ht1] at hx
        simpa using hx

theorem mappingOK_nil {D : Type} (P : VF2Ctx D) : MappingOK P [] := by
  refine ⟨List.nodup_nil, List.nodup_nil, ?_, ?_, ?_⟩ <;> simp

theorem mappingOK_commit {D : Type} [DecidableEq D] {P : VF2Ctx D}
    (hsymmP : ∀ x y, y ∈ outNbrs P.pAdj x ↔ x ∈ inNbrs P.pAdj y)
    (hsymmT : ∀ x y, y ∈ outNbrs P.tAdj x ↔ x ∈ inNbrs P.tAdj y)
    {mapping : AList String} {p t : String} (hm : MappingOK P mapping)
    (hp : p ∈ P.pNodes) (ht : t ∈ P.tNodes)
    (hunm : lookupA mapping p = none)
    (hval : t ∉ mapping.map (·.2))
    (hfeas : feasible P mapping p t = true) :
    MappingOK P (mapping ++ [(p, t)]) := by
  obtain ⟨hkeys, hvals, hmem, hpairs, hedges⟩ := hm
  obtain ⟨hdata, hdeg, hout, hin⟩ := feasible_elim hfeas
  have hpk : p ∉ keysA mapping := (lookupA_eq_none_iff _ _).mp hunm
  refine ⟨?_, ?_, ?_, ?_, ?_⟩
  · show (keysA (mapping ++ [(p, t)])).Nodup
    have hce : keysA (mapping ++ [(p, t)]) = keysA mapping ++ [p] := by
      simp [keysA]
    rw [hce, List.nodup_append]
    refine ⟨hkeys, List.nodup_singleton _, ?_⟩
    intro a ha hb
    rw [List.mem_singleton] at hb
    subst hb
    exact hpk ha
  · have hce : (mapping ++ [(p, t)]).map (·.2) = mapping.map (·.2) ++ [t] := by
      simp
    rw [hce, List.nodup_append]
    refine ⟨hvals, List.nodup_singleton _, ?_⟩
    intro a ha hb
    rw [List.mem_singleton] at hb
    subst hb
    exact hval ha
  · intro pr hpr
    rcases List.mem_append.mp hpr with h1 | h1
    · exact hmem pr h1
    · rw [List.mem_singleton] at h1
      subst h1
      exact ⟨hp, ht⟩
  · intro pr hpr
    rcases List.mem_append.mp hpr with h1 | h1
    · exact hpairs pr h1
    · rw [List.mem_singleton] at h1
      subst h1
      exact ⟨hdata, hdeg⟩
  · intro pr qr hpr hqr hne hadj
    rcases List.mem_append.mp hpr with h1 | h1 <;>
      rcases List.mem_append.mp hqr with h2 | h2
    · exact hedges pr qr h1 h2 hne hadj
    · rw [List.mem_singleton] at h2
      subst h2
      have hlk : lookupA mapping pr.1 = some pr.2 :=
        lookupA_eq_some_of_mem_nodup hkeys (by cases pr; exact h1)
      have hin2 : pr.1 ∈ inNbrs P.pAdj p := (hsymmP pr.1 p).mp hadj
      have hres := hin pr.1 hin2 pr.2 hlk
      exact (hsymmT pr.2 t).mpr hres
    · rw [List.mem_singleton] at h1
      subst h1
      have hlk : lookupA mapping qr.1 = some qr.2 :=
        lookupA_eq_some_of_mem_nodup hkeys (by cases qr; exact h2)
      exact hout qr.1 hadj qr.2 hlk
    · rw [List.mem_singleton] at h1
      rw [List.mem_singleton] at h2
      subst h1
      subst h2
      exact absurd rfl hne

theorem goT_spec {D : Type} [DecidableEq D] (P : VF2Ctx D)
    (next : AList String → SRes)
    (hnext : ∀ m, MappingOK P m → ∀ r, next m = .done true r →
      MappingOK P r ∧ r.length = P.pNodes.length)
    (hsymmP : ∀ x y, y ∈ outNbrs P.pAdj x ↔ x ∈ inNbrs P.pAdj y)
    (hsymmT : ∀ x y, y ∈ outNbrs P.tAdj x ↔ x ∈ inNbrs P.tAdj y)
    (mapping : AList String) (p : String) (hp : p ∈ P.pNodes)
    (hunm : lookupA mapping p = none) (hm : MappingOK P mapping) :
    ∀ ts : List String, (∀ t ∈ ts, t ∈ P.tNodes) →
      ∀ r, goT next (feasible P) mapping p ts = .done true r →
        MappingOK P r ∧ r.length = P.pNodes.length := by
  intro ts
  induction ts with
  | nil =>
    intro _ r h
    simp only [goT] at h
    simp at h
  | cons t ts ih =>
    intro hts r h
    simp only [goT] at h
    by_cases hused : (mapping.map (·.2)).contains t
    · rw [if_pos hused] at h
      exact ih (fun x hx => hts x (List.mem_cons_of_mem _ hx)) r h
    · rw [if_neg hused] at h
      by_cases hfeas : feasible P mapping p t = true
      · rw [if_pos hfeas] at h
        have hcommit : MappingOK P (mapping ++ [(p, t)]) :=
          mappingOK_commit hsymmP hsymmT hm hp (hts t (List.mem_cons_self _ _))
            hunm (by simpa using hused) hfeas
        cases hn : next (mapping ++ [(p, t)]) with
        | fuelOut => rw [hn] at h; cases h
        | crash => rw [hn] at h; cases h
        | done b m2 =>
          cases b with
          | true =>
            rw [hn] at h
            cases h
            exact hnext _ hcommit _ hn
          | false =>
            rw [hn] at h
            exact ih (fun x hx => hts x (List.mem_cons_of_mem _ hx)) r h
      · rw [if_neg hfeas] at h
        exact ih (fun x hx => hts x (List.mem_cons_of_mem _ hx)) r h

theorem searchGo_spec {D : Type} [DecidableEq D] (P : VF2Ctx D)
    (hsymmP : ∀ x y, y ∈ outNbrs P.pAdj x ↔ x ∈ inNbrs P.pAdj y)
    (hsymmT : ∀ x y, y ∈ outNbrs P.tAdj x ↔ x ∈ inNbrs P.tAdj y) :
    ∀ (fuel : Nat) (mapping : AList String), MappingOK P mapping →
      ∀ r, searchGo P fuel mapping = .done true r →
        MappingOK P r ∧ r.length = P.pNodes.length := by
  intro fuel
  induction fuel with
  | zero =>
    intro mapping _ r h
    simp only [searchGo] at h
    simp at h
  | succ fuel ih =>
    intro mapping hm r h
    simp only [searchGo] at h
    by_cases hlen : mapping.length = P.pNodes.length
    · rw [if_pos hlen] at h
      cases h
      exact ⟨hm, hlen⟩
    · rw [if_neg hlen] at h
      cases hfind : P.pNodes.find? (fun id => (lookupA mapping id).isNone) with
      | none =>
        rw [hfind] at h
        by_cases hall : P.tNodes.all (fun t => (mapping.map (·.2)).contains t)
        · rw [if_pos hall] at h; cases h
        · rw [if_neg hall] at h; cases h
      | some p =>
        rw [hfind] at h
        have hp : p ∈ P.pNodes := List.mem_of_find?_eq_some hfind
        have hunm : lookupA mapping p = none := by
          have hx := List.find?_some hfind
          simpa [Option.isNone_iff_eq_none] using hx
        exact goT_spec P (searchGo P fuel) (fun m hm2 r2 h2 => ih m hm2 r2 h2)
          hsymmP hsymmT mapping p hp hunm hm P.tNodes (fun t ht => ht) r h

theorem mapping_total {D : Type} {P : VF2Ctx D} {m : AList String}
    (hkeys : (keysA m).Nodup) (hsub : ∀ pr ∈ m, pr.1 ∈ P.pNodes)
    (hlen : m.length = P.pNodes.length) :
    ∀ id ∈ P.pNodes, ∃ t, lookupA m id = some t := by
  have hsub2 : keysA m ⊆ P.pNodes := by
    intro k hk
    obtain ⟨v, hv⟩ := (mem_keysA m k).mp hk
    exact hsub (k, v) hv
  have hsp : List.Subperm (keysA m) P.pNodes := hkeys.subperm hsub2
  have hlen2 : P.pNodes.length ≤ (keysA m).length := by
    rw [keysA, List.length_map, hlen]
  have hperm : (keysA m).Perm P.pNodes := hsp.perm_of_length_le hlen2
  intro id hid
  have hmem : id ∈ keysA m := hperm.symm.mem_iff.mp hid
  obtain ⟨v, hv⟩ := (mem_keysA m id).mp hmem
  exact ⟨v, lookupA_eq_some_of_mem_nodup hkeys hv⟩

theorem goT_ne_fuelOut (next : AList String → SRes)
    (feas : AList String → String → String → Bool)
    (mapping : AList String) (p : String)
    (hnext : ∀ t : String, next (mapping ++ [(p, t)]) ≠ .fuelOut) :
    ∀ ts, goT next feas mapping p ts ≠ .fuelOut := by
  intro ts
  induction ts with
  | nil => simp [goT]
  | cons t ts ih =>
    simp only [goT]
    by_cases h1 : (mapping.map (·.2)).contains t
    · rw [if_pos h1]; exact ih
    · rw [if_neg h1]
      by_cases h2 : feas mapping p t = true
      · rw [if_pos h2]
        cases hn : next (mapping ++ [(p, t)]) with
        | fuelOut => exact absurd hn (hnext t)
        | crash => simp
        | done b m =>
          cases b with
          | true => simp
          | false => exact ih
      · rw [if_neg h2]; exact ih

theorem searchGo_ne_fuelOut {D : Type} [DecidableEq D] (P : VF2Ctx D) :
    ∀ (fuel : Nat) (mapping : AList String),
      mapping.length ≤ P.pNodes.length →
      P.pNodes.length < fuel + mapping.length →
      searchGo P fuel mapping ≠ .fuelOut := by
  intro fuel
  induction fuel with
  | zero =>
    intro mapping h1 h2
    exfalso
    omega
  | succ fuel ih =>
    intro mapping h1 h2
    simp only [searchGo]
    by_cases hlen : mapping.length = P.pNodes.length
    · rw [if_pos hlen]; simp
    · rw [if_neg hlen]
      cases hfind : P.pNodes.find? (fun id => (lookupA mapping id).isNone) with
      | none =>
        by_cases hall : P.tNodes.all (fun t => (mapping.map (·.2)).contains t)
        · rw [if_pos hall]; simp
        · rw [if_neg hall]; simp
      | some p =>
        apply goT_ne_fuelOut
        intro t
        apply ih
        · simp only [List.length_append, List.length_singleton]
          omega
        · simp only [List.length_append, List.length_singleton]
          omega

/-- The fuel chosen in `vf2SubgraphIsomorphism` never runs out, so the
`fuelOut` branch of its final match is dead code of the embedding. -/
theorem searchGo_top_ne_fuelOut {D : Type} [DecidableEq D]
    (pattern target : DAGStructure D) :
    searchGo (mkCtx pattern target)
      ((pattern.nodes.map (·.id)).length + 1) [] ≠ .fuelOut := by
  apply searchGo_ne_fuelOut
  · simp [mkCtx]
  · simp [mkCtx]

/-! ## Claims about the subgraph matcher -/

theorem vf2_found_elim {D : Type} [DecidableEq D]
    {pattern target : DAGStructure D} {m : AList String}
    (h : vf2SubgraphIsomorphism pattern target = .found m) :
    (pattern.nodes = [] ∧ m = []) ∨
    (MappingOK (mkCtx pattern target) m ∧
      m.length = (pattern.nodes.map (·.id)).length) := by
  unfold vf2SubgraphIsomorphism at h
  by_cases h0 : (pattern.nodes.map (·.id)).length = 0
  · rw [if_pos h0] at h
    cases h
    left
    exact ⟨List.length_eq_zero.mp (by simpa using h0), rfl⟩
  · rw [if_neg h0] at h
    by_cases h1 : (pattern.nodes.map (·.id)).length > (target.nodes.map (·.id)).length
    · rw [if_pos h1] at h
      cases h
    · rw [if_neg h1] at h
      cases hS : searchGo (mkCtx pattern target)
          ((pattern.nodes.map (·.id)).length + 1) [] with
      | fuelOut => rw [hS] at h; cases h
      | crash => rw [hS] at h; cases h
      | done b m2 =>
        cases b with
        | false => rw [hS] at h; simp at h
        | true =>
          rw [hS] at h
          cases h
          right
          exact searchGo_spec (mkCtx pattern target)
            (fun x y => buildAdjacency_symm pattern x y)
            (fun x y => buildAdjacency_symm target x y)
            ((pattern.nodes.map (·.id)).length + 1) []
            (mappingOK_nil _) _ hS

/-- C1 (counterexample): for the self-loop pattern `p→p` against the
two-node cycle target, the matcher returns the mapping `p ↦ t` although the
pattern edge `p→p` has no counterpart `t→t` in the target: the neighbour
checks skip the not-yet-mapped candidate itself, so a self-loop is never
verified. -/
theorem claim_C1_cex :
    vf2SubgraphIsomorphism exLoopPattern exCycleTarget =
      VF2Res.found [("p", "t")] ∧
    DAGEdge.mk "p" "p" ∈ exLoopPattern.edges ∧
    lookupA [("p", "t")] "p" = some "t" ∧
    DAGEdge.mk "t" "t" ∉ exCycleTarget.edges := by
  refine ⟨by decide, by decide, by decide, by decide⟩

/-- C1 (amended): whenever the matcher returns a mapping, the mapping is
defined on every pattern node id, its values are distinct target node ids,
every mapped pair has equal payloads, and every pattern edge between two
DISTINCT pattern nodes (both of which exist in the pattern's node list) is
realized as an edge of the target structure. Self-loop pattern edges and
pattern edges with a dangling endpoint are exempt — the source never checks
them, as the counterexample shows. -/
theorem claim_C1 {D : Type} [DecidableEq D]
    (pattern target : DAGStructure D) (m : AList String)
    (h : vf2SubgraphIsomorphism pattern target = .found m) :
    (∀ id ∈ pattern.nodes.map (·.id), ∃ t, lookupA m id = some t) ∧
    (m.map (·.2)).Nodup ∧
    (∀ pr ∈ m, pr.2 ∈ target.nodes.map (·.id)) ∧
    (∀ pr ∈ m, ∃ pn ∈ pattern.nodes, ∃ tn ∈ target.nodes,
      pn.id = pr.1 ∧ tn.id = pr.2 ∧ pn.data = tn.data) ∧
    (∀ e ∈ pattern.edges, e.«from» ≠ e.«to» →
      e.«from» ∈ pattern.nodes.map (·.id) → e.«to» ∈ pattern.nodes.map (·.id) →
      ∃ t1 t2, lookupA m e.«from» = some t1 ∧ lookupA m e.«to» = some t2 ∧
        DAGEdge.mk t1 t2 ∈ target.edges) := by
  rcases vf2_found_elim h with ⟨hpn, rfl⟩ | ⟨hok, hlen⟩
  · refine ⟨?_, List.nodup_nil, ?_, ?_, ?_⟩
    · intro id hid
      rw [hpn] at hid
      simp at hid
    · intro pr hpr; simp at hpr
    · intro pr hpr; simp at hpr
    · intro e he hne hf ht
      rw [hpn] at hf
      simp at hf
  · obtain ⟨hkeys, hvals, hmem, hpairs, hedges⟩ := hok
    have htotal : ∀ id ∈ pattern.nodes.map (·.id), ∃ t, lookupA m id = some t :=
      mapping_total hkeys (fun pr hpr => (hmem pr hpr).1) hlen
    refine ⟨htotal, hvals, fun pr hpr => (hmem pr hpr).2, ?_, ?_⟩
    · intro pr hpr
      obtain ⟨pn, tn, hpn, htn, hdata⟩ := (hpairs pr hpr).1
      have hpn2 := lookup_nodesFold pattern.nodes [] pr.1 pn hpn
      have htn2 := lookup_nodesFold target.nodes [] pr.2 tn htn
      rcases hpn2 with h2 | h2
      · cases h2
      rcases htn2 with h3 | h3
      · cases h3
      exact ⟨pn, h2.1, tn, h3.1, h2.2, h3.2, hdata⟩
    · intro e he hne hf ht
      obtain ⟨t1, ht1⟩ := htotal e.«from» hf
      obtain ⟨t2, ht2⟩ := htotal e.«to» ht
      have hadj : e.«to» ∈ outNbrs (buildAdjacency pattern) e.«from» :=
        (buildAdjacency_mem_out pattern _ _).mpr
          ⟨by rw [DAGEdge.eta]; exact he, hf, ht⟩
      have hmem1 : (e.«from», t1) ∈ m := mem_of_lookupA_eq_some ht1
      have hmem2 : (e.«to», t2) ∈ m := mem_of_lookupA_eq_some ht2
      have hout : t2 ∈ outNbrs (buildAdjacency target) t1 :=
        hedges (e.«from», t1) (e.«to», t2) hmem1 hmem2 hne hadj
      exact ⟨t1, t2, ht1, ht2, ((buildAdjacency_mem_out target t1 t2).mp hout).1⟩

theorem claim_C1_witness :
    vf2SubgraphIsomorphism exEdgePattern exPathTarget =
      VF2Res.found [("p", "x"), ("q", "y")] ∧
    (∃ t1 t2, lookupA [("p", "x"), ("q", "y")] "p" = some t1 ∧
      lookupA [("p", "x"), ("q", "y")] "q" = some t2 ∧
      DAGEdge.mk t1 t2 ∈ exPathTarget.edges) :=
  have hv : vf2SubgraphIsomorphism exEdgePattern exPathTarget =
      VF2Res.found [("p", "x"), ("q", "y")] := by decide
  have h := claim_C1 exEdgePattern exPathTarget _ hv
  ⟨hv, h.2.2.2.2 ⟨"p", "q"⟩ (by decide) (by decide) (by decide) (by decide)⟩

/-- C8: every pair of the returned mapping satisfies the exact-degree rule:
root pattern nodes match the target node's out-degree exactly, leaf pattern
nodes its in-degree, interior pattern nodes both (degrees read off the
matcher's adjacency indices of the pattern and the target). -/
theorem claim_C8 {D : Type} [DecidableEq D]
    (pattern target : DAGStructure D) (m : AList String)
    (h : vf2SubgraphIsomorphism pattern target = .found m) :
    ∀ pr ∈ m, degreeOK (mkCtx pattern target) pr.1 pr.2 := by
  rcases vf2_found_elim h with ⟨_, rfl⟩ | ⟨hok, _⟩
  · intro pr hpr
    simp at hpr
  · intro pr hpr
    exact (hok.2.2.2.1 pr hpr).2

theorem claim_C8_witness :
    vf2SubgraphIsomorphism exEdgePattern exPathTarget =
      VF2Res.found [("p", "x"), ("q", "y")] ∧
    degreeOK (mkCtx exEdgePattern exPathTarget) "p" "x" :=
  have hv : vf2SubgraphIsomorphism exEdgePattern exPathTarget =
      VF2Res.found [("p", "x"), ("q", "y")] := by decide
  ⟨hv, claim_C8 exEdgePattern exPathTarget _ hv ("p", "x") (by decide)⟩

/-- C2 (counterexample): on the diamond target with the single-edge pattern
the matcher returns no mapping at all — the pattern's leaf `q` has
in-degree 1 but the only target edges out of an out-degree-1 node end in
`d` (in-degree 2) or fail the neighbour check, so every candidate pair is
rejected and the claimed non-empty mapping does not exist. -/
theorem claim_C2_cex :
    vf2SubgraphIsomorphism exEdgePattern exDiamondTarget = VF2Res.noMatch := by
  decide

/-- C2 (amended): the diamond round-trip of the spec fails on the code: the
matcher returns no mapping for this pattern/target pair (hence the edge
condition on returned mappings holds vacuously), and the boolean wrapper
reports no subgraph isomorphism. -/
theorem claim_C2 :
    vf2SubgraphIsomorphism exEdgePattern exDiamondTarget = VF2Res.noMatch ∧
    isSubgraphIsomorphic exEdgePattern exDiamondTarget = false := by
  refine ⟨by decide, by decide⟩

/-- C3: the matcher is NOT total on malformed inputs: with a pattern whose
node list repeats an id and a target with two nodes, the search maps the id,
then finds every pattern id mapped while the mapping is still smaller than
the pattern node list; the source then calls `feasible(undefined, t)` for
the unused target `u` and throws a `TypeError` — modelled here as `crash`. -/
theorem claim_C3 :
    vf2SubgraphIsomorphism exDupPattern exTwoTarget = VF2Res.crash := by
  decide

/-! ## Counting, chain, and pigeonhole helpers -/

theorem inCountFrom_zero_iff {D : Type} (s : DAGStructure D) (R : List String)
    (v : String) :
    inCountFrom s R v = 0 ↔ ∀ e ∈ s.edges, e.«to» = v → e.«from» ∈ R := by
  unfold inCountFrom
  rw [List.length_eq_zero, List.filter_eq_nil]
  constructor
  · intro h e he hto
    have hx := h e he
    simp only [decide_eq_true_eq, not_and, not_not] at hx
    by_contra hfrom
    simp [hto, hfrom] at hx
  · intro h e he
    simp only [decide_eq_true_eq, not_and, not_not]
    intro hto
    by_contra hfrom
    exact hfrom (h e he hto)

theorem inCountFrom_ne_zero {D : Type} {s : DAGStructure D} {R : List String}
    {v : String} (h : inCountFrom s R v ≠ 0) :
    ∃ e ∈ s.edges, e.«to» = v ∧ e.«from» ∉ R := by
  unfold inCountFrom at h
  rcases hx : s.edges.filter (fun e => e.«to» = v ∧ e.«from» ∉ R) with _ | ⟨e, es⟩
  · rw [hx] at h; simp at h
  · have he : e ∈ s.edges.filter (fun e => e.«to» = v ∧ e.«from» ∉ R) := by
      rw [hx]; exact List.mem_cons_self _ _
    rw [List.mem_filter] at he
    refine ⟨e, he.1, ?_⟩
    have := he.2
    simpa using this

theorem count_filter_append_aux (R : List String) (u v : String)
    (hu : u ∉ R) :
    ∀ es : List DAGEdge, es.Nodup →
      (es.filter (fun e => e.«to» = v ∧ e.«from» ∉ R)).length =
        (es.filter (fun e => e.«to» = v ∧ e.«from» ∉ R ++ [u])).length +
          (if DAGEdge.mk u v ∈ es then 1 else 0) := by
  intro es
  induction es with
  | nil => simp
  | cons e es ih =>
    intro hnd
    rw [List.nodup_cons] at hnd
    have ihe := ih hnd.2
    have hmem : (DAGEdge.mk u v ∈ e :: es) ↔
        (e = DAGEdge.mk u v ∨ DAGEdge.mk u v ∈ es) := by
      rw [List.mem_cons]
      constructor
      · rintro (h | h)
        · exact Or.inl h.symm
        · exact Or.inr h
      · rintro (h | h)
        · exact Or.inl h.symm
        · exact Or.inr h
    by_cases heq : e = DAGEdge.mk u v
    · subst heq
      have h1 : decide ((DAGEdge.mk u v).«to» = v ∧ (DAGEdge.mk u v).«from» ∉ R) = true := by
        simp [hu]
      have h2 : ¬ (decide ((DAGEdge.mk u v).«to» = v ∧
          (DAGEdge.mk u v).«from» ∉ R ++ [u]) = true) := by
        simp
      rw [List.filter_cons, List.filter_cons, if_pos h1, if_neg h2,
        if_congr hmem rfl rfl, if_pos (Or.inl rfl)]
      rw [if_neg hnd.1] at ihe
      simp only [List.length_cons]
      omega
    · have hmem2 : (DAGEdge.mk u v ∈ e :: es) ↔ (DAGEdge.mk u v ∈ es) := by
        rw [hmem]
        constructor
        · rintro (h | h)
          · exact absurd h heq
          · exact h
        · exact Or.inr
      by_cases hp : e.«to» = v ∧ e.«from» ∉ R
      · have hp1 : decide (e.«to» = v ∧ e.«from» ∉ R) = true := by
          simp [hp.1, hp.2]
        have hp2 : decide (e.«to» = v ∧ e.«from» ∉ R ++ [u]) = true := by
          simp only [decide_eq_true_eq]
          refine ⟨hp.1, ?_⟩
          intro hmm
          rcases List.mem_append.mp hmm with hh | hh
          · exact hp.2 hh
          · rw [List.mem_singleton] at hh
            exact heq (by cases e; obtain ⟨h3, h4⟩ := hp; simp_all)
        rw [List.filter_cons, List.filter_cons, if_pos hp1, if_pos hp2,
          if_congr hmem2 rfl rfl]
        simp only [List.length_cons]
        omega
      · have hp1 : ¬ (decide (e.«to» = v ∧ e.«from» ∉ R) = true) := by
          simpa using hp
        have hp2 : ¬ (decide (e.«to» = v ∧ e.«from» ∉ R ++ [u]) = true) := by
          simp only [decide_eq_true_eq]
          rintro ⟨hto, hfrom⟩
          exact hp ⟨hto, fun hfR => hfrom (List.mem_append.mpr (Or.inl hfR))⟩
        rw [List.filter_cons, List.filter_cons, if_neg hp1, if_neg hp2,
          if_congr hmem2 rfl rfl]
        exact ihe

theorem inCountFrom_append {D : Type} (s : DAGStructure D) (R : List String)
    (u v : String) (hu : u ∉ R) (hnd : s.edges.Nodup) :
    inCountFrom s R v =
      inCountFrom s (R ++ [u]) v +
        (if DAGEdge.mk u v ∈ s.edges then 1 else 0) :=
  count_filter_append_aux R u v hu s.edges hnd

theorem chain'_reflTransGen_getLast {α : Type} {R : α → α → Prop} :
    ∀ (l : List α) (hl : List.Chain' R l) (x : α) (hx : x ∈ l)
      (hne : l ≠ []), Relation.ReflTransGen R x (l.getLast hne) := by
  intro l
  induction l with
  | nil => intro _ x hx; simp at hx
  | cons a t ih =>
    intro hl x hx hne
    cases t with
    | nil =>
      rw [List.mem_singleton] at hx
      subst hx
      exact Relation.ReflTransGen.refl
    | cons b t2 =>
      rw [List.chain'_cons] at hl
      rw [List.getLast_cons_cons]
      rcases List.mem_cons.mp hx with rfl | hx2
      · exact Relation.ReflTransGen.head hl.1
          (ih hl.2 b (List.mem_cons_self _ _) (by simp))
      · exact ih hl.2 x hx2 (by simp)

theorem chain_mem_pred {α : Type} {R : α → α → Prop} :
    ∀ (l : List α) (a : α), List.Chain R a l →
      ∀ x ∈ l, ∃ w ∈ a :: l, R w x := by
  intro l
  induction l with
  | nil => intro a _ x hx; simp at hx
  | cons b t ih =>
    intro a hl x hx
    rw [List.chain_cons] at hl
    rcases List.mem_cons.mp hx with rfl | hx2
    · exact ⟨a, List.mem_cons_self _ _, hl.1⟩
    · obtain ⟨w, hw, hR⟩ := ih b hl.2 x hx2
      exact ⟨w, List.mem_cons_of_mem _ hw, hR⟩

theorem cycle_of_preds {R : String → String → Prop} {S : List String}
    (hne : S ≠ []) (hpred : ∀ v ∈ S, ∃ u ∈ S, R u v) :
    ∃ v, Relation.TransGen R v v := by
  classical
  choose f hf1 hf2 using hpred
  obtain ⟨v0, hv0⟩ := List.exists_mem_of_ne_nil S hne
  let g : Nat → {x // x ∈ S} :=
    fun n => Nat.rec ⟨v0, hv0⟩ (fun _ p => ⟨f p.1 p.2, hf1 p.1 p.2⟩) n
  have hstep : ∀ n, R (g (n + 1)).1 (g n).1 := fun n => hf2 (g n).1 (g n).2
  have hchain : ∀ i j, i < j → Relation.TransGen R (g j).1 (g i).1 := by
    intro i j hij
    induction j with
    | zero => omega
    | succ j ihj =>
      rcases Nat.lt_succ_iff_lt_or_eq.mp hij with h | h
      · exact Relation.TransGen.head (hstep j) (ihj h)
      · subst h
        exact Relation.TransGen.single (hstep i)
  have hmaps : ∀ n : Fin (S.length + 1),
      n ∈ (Finset.univ : Finset (Fin (S.length + 1))) →
      S.indexOf (g n.1).1 ∈ Finset.range S.length := by
    intro n _
    simp only [Finset.mem_range]
    exact List.indexOf_lt_length.mpr (g n.1).2
  obtain ⟨i, _, j, _, hne2, heq⟩ :=
    Finset.exists_ne_map_eq_of_card_lt_of_maps_to
      (by simp) hmaps
  have hval : (g i.1).1 = (g j.1).1 :=
    (List.indexOf_inj (g i.1).2 (g j.1).2).mp heq
  have hij : i.1 ≠ j.1 := fun hh => hne2 (Fin.ext hh)
  rcases Nat.lt_or_ge i.1 j.1 with h | h
  · refine ⟨(g j.1).1, ?_⟩
    have hc := hchain i.1 j.1 h
    rwa [hval] at hc
  · have h2 : j.1 < i.1 := lt_of_le_of_ne h (fun hh => hij hh.symm)
    refine ⟨(g i.1).1, ?_⟩
    have hc := hchain j.1 i.1 h2
    rwa [← hval] at hc

theorem transGen_cycle_chain {D : Type} {s : DAGStructure D} {v : String}
    (h : Relation.TransGen (ERel s) v v) :
    ∃ l, l ≠ [] ∧ List.Chain (ERel s) v l ∧ l.getLast? = some v := by
  rcases (Relation.TransGen.head'_iff).mp h with ⟨c, hvc, hcv⟩
  obtain ⟨l, hl1, hl2⟩ := List.exists_chain_of_relationReflTransGen hcv
  refine ⟨c :: l, by simp, List.Chain.cons hvc hl1, ?_⟩
  rw [List.getLast?_eq_getLast _ (by simp)]
  exact congrArg some hl2

/-! ## Characterizing the initial in-degree map and queue -/

theorem foldl_setA_fresh {D β : Type} (f : DAGNode D → β) :
    ∀ (ns : List (DAGNode D)) (acc : AList β),
      (ns.map (·.id)).Nodup → (∀ n ∈ ns, n.id ∉ keysA acc) →
      ns.foldl (fun m n => setA m n.id (f n)) acc =
        acc ++ ns.map (fun n => (n.id, f n)) := by
  intro ns
  induction ns with
  | nil => intro acc _ _; simp
  | cons n rest ih =>
    intro acc hn hfresh
    rw [List.map_cons, List.nodup_cons] at hn
    rw [List.foldl_cons,
      setA_of_not_mem (f n) (hfresh n (List.mem_cons_self _ _)),
      ih _ hn.2 ?_]
    · simp
    · intro m hm
      rw [keysA, List.map_append]
      simp only [List.mem_append]
      rintro (hk | hk)
      · exact hfresh m (List.mem_cons_of_mem _ hm) hk
      · simp only [keysA, List.map_cons, List.map_nil, List.mem_singleton] at hk
        exact hn.1 (hk ▸ List.mem_map_of_mem (·.id) hm)

theorem initInDeg_fold :
    ∀ (es : List DAGEdge) (m0 : AList Int),
      (∀ e ∈ es, e.«to» ∈ keysA m0) →
      ∀ v, lookupA (es.foldl
          (fun m e => setA m e.«to» ((lookupA m e.«to»).getD 0 + 1)) m0) v =
        (lookupA m0 v).map
          (fun d => d + ((es.filter (fun e => e.«to» = v)).length : Int)) := by
  intro es
  induction es with
  | nil =>
    intro m0 _ v
    cases hx : lookupA m0 v <;> simp [hx]
  | cons e es ih =>
    intro m0 hkeys v
    rw [List.foldl_cons]
    obtain ⟨d0, hd0⟩ := Option.isSome_iff_exists.mp
      ((lookupA_isSome_iff _ _).mpr (hkeys e (List.mem_cons_self _ _)))
    have hkeys2 : ∀ e2 ∈ es, e2.«to» ∈ keysA (setA m0 e.«to» ((lookupA m0 e.«to»).getD 0 + 1)) := by
      intro e2 he2
      rw [keysA_setA_of_mem _ ((lookupA_isSome_iff _ _).mp (by rw [hd0]; rfl))]
      exact hkeys e2 (List.mem_cons_of_mem _ he2)
    rw [ih _ hkeys2 v, lookupA_setA]
    by_cases hv : e.«to» = v
    · subst hv
      rw [if_pos rfl, hd0]
      simp only [Option.getD_some, Option.map_some, List.filter_cons]
      rw [if_pos (by simp)]
      simp only [List.length_cons]
      exact congrArg some (by push_cast; ring)
    · rw [if_neg hv]
      rw [List.filter_cons, if_neg (by simpa using hv)]

theorem initInDeg_spec {D : Type} (s : DAGStructure D)
    (hn : (s.nodes.map (·.id)).Nodup)
    (hd : ∀ e ∈ s.edges, e.«from» ∈ s.nodes.map (·.id) ∧
      e.«to» ∈ s.nodes.map (·.id)) :
    keysA (initInDeg s) = s.nodes.map (·.id) ∧
    (∀ v ∈ s.nodes.map (·.id),
      lookupA (initInDeg s) v = some ((inCountFrom s [] v : Nat) : Int)) ∧
    (∀ v, v ∉ s.nodes.map (·.id) → lookupA (initInDeg s) v = none) := by
  have hbase : s.nodes.foldl (fun m n => setA m n.id (0 : Int)) [] =
      s.nodes.map (fun n => (n.id, (0 : Int))) := by
    rw [foldl_setA_fresh (fun _ => (0 : Int)) s.nodes [] hn
      (by intro n _; simp [keysA])]
    simp
  have hbkeys : keysA (s.nodes.map (fun n => (n.id, (0 : Int)))) =
      s.nodes.map (·.id) := keysA_map_nodes s.nodes _
  have hcount : ∀ v, (s.edges.filter (fun e => e.«to» = v)).length =
      inCountFrom s [] v := by
    intro v
    unfold inCountFrom
    congr 1
    apply List.filter_congr
    intro e _
    simp
  have hlk : ∀ v, lookupA (initInDeg s) v =
      (lookupA (s.nodes.map (fun n => (n.id, (0 : Int)))) v).map
        (fun d => d + ((s.edges.filter (fun e => e.«to» = v)).length : Int)) := by
    intro v
    unfold initInDeg
    rw [hbase]
    exact initInDeg_fold s.edges _ (by
      intro e he
      rw [hbkeys]
      exact (hd e he).2) v
  have hkeysfold : keysA (initInDeg s) = s.nodes.map (·.id) := by
    have : ∀ k, k ∈ keysA (initInDeg s) ↔ k ∈ s.nodes.map (·.id) := by
      intro k
      rw [← lookupA_isSome_iff, hlk k]
      cases hx : lookupA (s.nodes.map (fun n => (n.id, (0 : Int)))) k with
      | none =>
        rw [lookupA_eq_none_iff, hbkeys] at hx
        simp [hx]
      | some d =>
        have hk2 : k ∈ keysA (s.nodes.map (fun n => (n.id, (0 : Int)))) := by
          rw [← lookupA_isSome_iff, hx]; rfl
        rw [hbkeys] at hk2
        simp [hk2]
    -- keys as lists: both equal because the fold preserves key order
    -- prove list equality via the underlying construction instead
    unfold initInDeg
    rw [hbase]
    -- keys are preserved by the edges fold since every target is a key
    have : ∀ (es : List DAGEdge) (m0 : AList Int),
        (∀ e ∈ es, e.«to» ∈ keysA m0) →
        keysA (es.foldl (fun m e => setA m e.«to» ((lookupA m e.«to»).getD 0 + 1)) m0) =
          keysA m0 := by
      intro es
      induction es with
      | nil => intro m0 _; rfl
      | cons e es ih =>
        intro m0 hkeys
        rw [List.foldl_cons, ih, keysA_setA_of_mem _ (hkeys e (List.mem_cons_self _ _))]
        intro e2 he2
        rw [keysA_setA_of_mem _ (hkeys e (List.mem_cons_self _ _))]
        exact hkeys e2 (List.mem_cons_of_mem _ he2)
    rw [this s.edges _ (by
      intro e he
      rw [hbkeys]
      exact (hd e he).2)]
    exact hbkeys
  refine ⟨hkeysfold, ?_, ?_⟩
  · intro v hv
    rw [hlk v]
    have hvk : v ∈ keysA (s.nodes.map (fun n => (n.id, (0 : Int)))) := by
      rw [hbkeys]; exact hv
    obtain ⟨d, hdv⟩ := Option.isSome_iff_exists.mp ((lookupA_isSome_iff _ _).mpr hvk)
    have hd0 : d = 0 := by
      have := lookupA_map_const s.nodes (0 : Int) v hdv
      exact this
    rw [hdv, hd0]
    simp [hcount v]
  · intro v hv
    rw [lookupA_eq_none_iff, hkeysfold]
    exact hv

theorem kahn_init {D : Type} (s : DAGStructure D) (hwf : WFStructure s) :
    KahnInv s (initInDeg s)
      (((initInDeg s).filter (fun p => p.2 = 0)).map (·.1)) [] := by
  obtain ⟨hn, hnd, hd⟩ := hwf
  obtain ⟨hkeys, hlk, hnone⟩ := initInDeg_spec s hn hd
  have hknodup : (keysA (initInDeg s)).Nodup := by rw [hkeys]; exact hn
  have hq : ∀ x, x ∈ ((initInDeg s).filter (fun p => p.2 = 0)).map (·.1) ↔
      (x ∈ s.nodes.map (·.id) ∧ inCountFrom s [] x = 0) := by
    intro x
    constructor
    · intro hx
      rw [List.mem_map] at hx
      obtain ⟨p, hp, rfl⟩ := hx
      rw [List.mem_filter] at hp
      have hx1 : p.1 ∈ keysA (initInDeg s) :=
        (mem_keysA _ _).mpr ⟨p.2, by cases p; exact hp.1⟩
      rw [hkeys] at hx1
      refine ⟨hx1, ?_⟩
      have hsome : lookupA (initInDeg s) p.1 = some p.2 :=
        lookupA_eq_some_of_mem_nodup hknodup (by cases p; exact hp.1)
      rw [hlk p.1 hx1] at hsome
      have h0 : p.2 = 0 := by simpa using hp.2
      have : ((inCountFrom s [] p.1 : Nat) : Int) = p.2 := Option.some_inj.mp hsome
      rw [h0] at this
      exact_mod_cast this
    · rintro ⟨hx1, hx2⟩
      have hsome : lookupA (initInDeg s) x = some 0 := by
        rw [hlk x hx1, hx2]; rfl
      rw [List.mem_map]
      refine ⟨(x, 0), ?_, rfl⟩
      rw [List.mem_filter]
      exact ⟨mem_of_lookupA_eq_some hsome, by simp⟩
  have hqnodup : ((((initInDeg s).filter (fun p => p.2 = 0)).map (·.1))).Nodup := by
    have hsub : List.Sublist
        ((((initInDeg s).filter (fun p => p.2 = 0)).map (·.1))) (keysA (initInDeg s)) :=
      List.Sublist.map _ (List.filter_sublist _)
    exact hknodup.sublist hsub
  refine ⟨List.nodup_nil, hqnodup, ?_, ?_, ?_, ?_, ?_, ?_, ?_⟩
  · intro x _
    simp
  · intro x hx
    exact ((hq x).mp hx).1
  · intro x hx
    simp at hx
  · intro v hv
    exact hlk v hv
  · intro v hv
    simp only [List.not_mem_nil, or_false]
    rw [hq v]
    constructor
    · rintro ⟨_, h⟩
      exact h
    · intro h
      exact ⟨hv, h⟩
  · intro i v h
    simp at h
  · intro x hx e he hto
    have h0 := ((hq x).mp hx).2
    rw [inCountFrom_zero_iff] at h0
    exact h0 e he hto

theorem kahnFold {D : Type} (s : DAGStructure D) (hnd : s.edges.Nodup)
    (hd : ∀ e ∈ s.edges, e.«from» ∈ s.nodes.map (·.id) ∧
      e.«to» ∈ s.nodes.map (·.id)) (u : String) (R' : List String) :
    ∀ (cs : List String) (d0 : AList Int) (q0 : List String),
      cs.Nodup →
      (∀ c ∈ cs, DAGEdge.mk u c ∈ s.edges) →
      (∀ v ∈ s.nodes.map (·.id), lookupA d0 v =
        some (((inCountFrom s R' v +
          (if DAGEdge.mk u v ∈ s.edges ∧ v ∈ cs then 1 else 0) : Nat)) : Int)) →
      q0.Nodup →
      (∀ x ∈ q0, x ∈ s.nodes.map (·.id) ∧ x ∉ R') →
      (∀ v ∈ s.nodes.map (·.id), ((v ∈ q0 ∨ v ∈ R') ↔
        inCountFrom s R' v +
          (if DAGEdge.mk u v ∈ s.edges ∧ v ∈ cs then 1 else 0) = 0)) →
      (∀ x ∈ q0, ∀ e ∈ s.edges, e.«to» = x → e.«from» ∈ R') →
      ((∀ v ∈ s.nodes.map (·.id),
          lookupA (cs.foldl kfoldStep (d0, q0)).1 v =
            some ((inCountFrom s R' v : Nat) : Int)) ∧
        (cs.foldl kfoldStep (d0, q0)).2.Nodup ∧
        (∀ x ∈ (cs.foldl kfoldStep (d0, q0)).2,
          x ∈ s.nodes.map (·.id) ∧ x ∉ R') ∧
        (∀ v ∈ s.nodes.map (·.id),
          ((v ∈ (cs.foldl kfoldStep (d0, q0)).2 ∨ v ∈ R') ↔
            inCountFrom s R' v = 0)) ∧
        (∀ x ∈ (cs.foldl kfoldStep (d0, q0)).2,
          ∀ e ∈ s.edges, e.«to» = x → e.«from» ∈ R')) := by
  intro cs
  induction cs with
  | nil =>
    intro d0 q0 _ _ hM1 hq0nodup hq0mem hM3 hM4
    simp only [List.not_mem_nil, and_false, if_false, Nat.add_zero] at hM1 hM3
    exact ⟨hM1, hq0nodup, hq0mem, hM3, hM4⟩
  | cons c cs ih =>
    intro d0 q0 hnodupcs hcsE hM1 hq0nodup hq0mem hM3 hM4
    rw [List.nodup_cons] at hnodupcs
    have hEc : DAGEdge.mk u c ∈ s.edges := hcsE c (List.mem_cons_self _ _)
    have hcid : c ∈ s.nodes.map (·.id) := by
      have := (hd _ hEc).2
      simpa using this
    have hlkc : lookupA d0 c =
        some (((inCountFrom s R' c + 1 : Nat)) : Int) := by
      have hx := hM1 c hcid
      rw [if_pos ⟨hEc, List.mem_cons_self _ _⟩] at hx
      exact hx
    have harith : ((inCountFrom s R' c + 1 : Nat) : Int) - 1 =
        ((inCountFrom s R' c : Nat) : Int) := by
      push_cast
      ring
    have hstep : kfoldStep (d0, q0) c =
        (setA d0 c ((inCountFrom s R' c : Nat) : Int),
         if ((inCountFrom s R' c : Nat) : Int) = 0 then q0 ++ [c] else q0) := by
      unfold kfoldStep
      rw [hlkc]
      simp only [Option.getD_some]
      rw [harith]
    have hindic : ∀ v, v ≠ c →
        ((if DAGEdge.mk u v ∈ s.edges ∧ v ∈ c :: cs then 1 else 0) =
          (if DAGEdge.mk u v ∈ s.edges ∧ v ∈ cs then 1 else 0)) := by
      intro v hv
      refine if_congr ?_ rfl rfl
      constructor
      · rintro ⟨h1, h2⟩
        rcases List.mem_cons.mp h2 with h3 | h3
        · exact absurd h3 hv
        · exact ⟨h1, h3⟩
      · rintro ⟨h1, h2⟩
        exact ⟨h1, List.mem_cons_of_mem _ h2⟩
    have hcq0 : c ∉ q0 ∧ c ∉ R' := by
      have hx := hM3 c hcid
      rw [if_pos ⟨hEc, List.mem_cons_self _ _⟩] at hx
      constructor
      · intro hc
        have := hx.mp (Or.inl hc)
        omega
      · intro hc
        have := hx.mp (Or.inr hc)
        omega
    rw [List.foldl_cons, hstep]
    have hM1' : ∀ v ∈ s.nodes.map (·.id),
        lookupA (setA d0 c ((inCountFrom s R' c : Nat) : Int)) v =
          some (((inCountFrom s R' v +
            (if DAGEdge.mk u v ∈ s.edges ∧ v ∈ cs then 1 else 0) : Nat)) : Int) := by
      intro v hv
      rw [lookupA_setA]
      by_cases hvc : c = v
      · subst hvc
        rw [if_pos rfl]
        have hcnotin : ¬ (DAGEdge.mk u c ∈ s.edges ∧ c ∈ cs) := by
          rintro ⟨-, hmm⟩
          exact hnodupcs.1 hmm
        rw [if_neg hcnotin]
        simp
      · rw [if_neg hvc]
        rw [hM1 v hv, hindic v (fun hh => hvc hh.symm)]
    by_cases hc0 : inCountFrom s R' c = 0
    · rw [if_pos (by exact_mod_cast congrArg (fun (n : Nat) => (n : Int)) hc0)]
      refine ih _ _ hnodupcs.2 (fun x hx => hcsE x (List.mem_cons_of_mem _ hx))
        hM1' ?_ ?_ ?_ ?_
      · rw [List.nodup_append]
        refine ⟨hq0nodup, List.nodup_singleton _, ?_⟩
        intro a ha hb
        rw [List.mem_singleton] at hb
        subst hb
        exact hcq0.1 ha
      · intro x hx
        rcases List.mem_append.mp hx with hx1 | hx1
        · exact hq0mem x hx1
        · rw [List.mem_singleton] at hx1
          subst hx1
          exact ⟨hcid, hcq0.2⟩
      · intro v hv
        by_cases hvc : v = c
        · subst hvc
          constructor
          · intro _
            have hvnotin : ¬ (DAGEdge.mk u v ∈ s.edges ∧ v ∈ cs) := by
              rintro ⟨-, hmm⟩
              exact hnodupcs.1 hmm
            rw [if_neg hvnotin]
            omega
          · intro _
            exact Or.inl (List.mem_append.mpr (Or.inr (List.mem_singleton.mpr rfl)))
        · have hx := hM3 v hv
          rw [hindic v hvc] at hx
          constructor
          · intro hmm
            apply hx.mp
            rcases hmm with hmm | hmm
            · rcases List.mem_append.mp hmm with h2 | h2
              · exact Or.inl h2
              · rw [List.mem_singleton] at h2
                exact absurd h2 hvc
            · exact Or.inr hmm
          · intro hz
            rcases hx.mpr hz with h2 | h2
            · exact Or.inl (List.mem_append.mpr (Or.inl h2))
            · exact Or.inr h2
      · intro x hx e he hto
        rcases List.mem_append.mp hx with hx1 | hx1
        · exact hM4 x hx1 e he hto
        · rw [List.mem_singleton] at hx1
          subst hx1
          have := (inCountFrom_zero_iff s R' x).mp hc0
          exact this e he hto
    · rw [if_neg (by
        intro hmm
        exact hc0 (by exact_mod_cast hmm))]
      refine ih _ _ hnodupcs.2 (fun x hx => hcsE x (List.mem_cons_of_mem _ hx))
        hM1' hq0nodup hq0mem ?_ hM4
      intro v hv
      by_cases hvc : v = c
      · subst hvc
        constructor
        · intro hmm
          rcases hmm with hmm | hmm
          · exact absurd hmm hcq0.1
          · exact absurd hmm hcq0.2
        · intro hz
          have hvnotin : ¬ (DAGEdge.mk u v ∈ s.edges ∧ v ∈ cs) := by
            rintro ⟨-, hmm⟩
            exact hnodupcs.1 hmm
          rw [if_neg hvnotin] at hz
          omega
      · have hx := hM3 v hv
        rw [hindic v hvc] at hx
        exact hx

theorem kahnLoop_spec {D : Type} (s : DAGStructure D) (hwf : WFStructure s) :
    ∀ (fuel : Nat) (inDeg : AList Int) (queue R : List String),
      KahnInv s inDeg queue R →
      (s.nodes.map (·.id)).length < fuel + R.length →
      KahnPost s (kahnLoop (DAG.load DAG.empty s) fuel inDeg queue R) := by
  obtain ⟨hn, hnde, hd⟩ := hwf
  intro fuel
  induction fuel with
  | zero =>
    intro inDeg queue R hinv hlen
    obtain ⟨hRnd, -, -, -, hRids, -, -, -, -⟩ := hinv
    have hle : R.length ≤ (s.nodes.map (·.id)).length :=
      (hRnd.subperm (fun x hx => hRids x hx)).length_le
    omega
  | succ fuel ih =>
    intro inDeg queue R hinv hlen
    obtain ⟨hRnd, hQnd, hQR, hQids, hRids, hLk, hMem, hPos, hQpred⟩ := hinv
    match queue with
    | [] =>
      show KahnPost s R
      refine ⟨hRnd, hRids, ?_, hPos⟩
      intro v hv
      have hx := hMem v hv
      simpa using hx
    | id :: rest =>
      have hidQ : id ∈ id :: rest := List.mem_cons_self _ _
      have hidids : id ∈ s.nodes.map (·.id) := hQids id hidQ
      have hidR : id ∉ R := hQR id hidQ
      have hidrest : id ∉ rest := (List.nodup_cons.mp hQnd).1
      have hrestnd : rest.Nodup := (List.nodup_cons.mp hQnd).2
      have hcs : ∀ v, v ∈ (DAG.load DAG.empty s).getChildren id ↔
          DAGEdge.mk id v ∈ s.edges := load_getChildren s hn hd id
      have hcsnd : ((DAG.load DAG.empty s).getChildren id).Nodup :=
        load_getChildren_nodup s hn id
      have hindic : ∀ v,
          (if DAGEdge.mk id v ∈ s.edges then 1 else 0) =
          (if DAGEdge.mk id v ∈ s.edges ∧
              v ∈ (DAG.load DAG.empty s).getChildren id then 1 else 0) := by
        intro v
        refine if_congr ⟨fun h => ⟨h, (hcs v).mpr h⟩, fun h => h.1⟩ rfl rfl
      have happ : ∀ v, inCountFrom s R v =
          inCountFrom s (R ++ [id]) v +
            (if DAGEdge.mk id v ∈ s.edges then 1 else 0) :=
        fun v => inCountFrom_append s R id v hidR hnde
      obtain ⟨hF1, hF2, hF3, hF4, hF5⟩ :=
        kahnFold s hnde hd id (R ++ [id])
          ((DAG.load DAG.empty s).getChildren id) inDeg rest hcsnd
          (fun c hc => (hcs c).mp hc)
          (by
            intro v hv
            rw [hLk v hv]
            exact congrArg (fun (n : Nat) => some ((n : Nat) : Int))
              (by rw [← hindic v, ← happ v]))
          hrestnd
          (by
            intro x hx
            refine ⟨hQids x (List.mem_cons_of_mem _ hx), ?_⟩
            intro hmem
            rcases List.mem_append.mp hmem with h1 | h1
            · exact hQR x (List.mem_cons_of_mem _ hx) h1
            · rw [List.mem_singleton] at h1
              subst h1
              exact hidrest hx)
          (by
            intro v hv
            have hiff : (v ∈ rest ∨ v ∈ R ++ [id]) ↔ (v ∈ id :: rest ∨ v ∈ R) := by
              simp only [List.mem_append, List.mem_cons, List.mem_singleton]
              tauto
            rw [hiff, hMem v hv, happ v, hindic v])
          (by
            intro x hx e he hto
            exact List.mem_append.mpr
              (Or.inl (hQpred x (List.mem_cons_of_mem _ hx) e he hto)))
      have hinv' : KahnInv s
          (((DAG.load DAG.empty s).getChildren id).foldl kfoldStep (inDeg, rest)).1
          (((DAG.load DAG.empty s).getChildren id).foldl kfoldStep (inDeg, rest)).2
          (R ++ [id]) := by
        refine ⟨?_, hF2, fun x hx => (hF3 x hx).2, fun x hx => (hF3 x hx).1,
          ?_, hF1, hF4, ?_, hF5⟩
        · rw [List.nodup_append]
          refine ⟨hRnd, List.nodup_singleton _, ?_⟩
          intro a ha hb
          rw [List.mem_singleton] at hb
          subst hb
          exact hidR ha
        · intro x hx
          rcases List.mem_append.mp hx with h1 | h1
          · exact hRids x h1
          · rw [List.mem_singleton] at h1
            subst h1
            exact hidids
        · intro i v hget e he hto
          rcases lt_trichotomy i R.length with hi | hi | hi
          · rw [List.get?_append hi] at hget
            have hx := hPos i v hget e he hto
            have htake : (R ++ [id]).take i = R.take i := by
              rw [List.take_append_eq_append_take,
                Nat.sub_eq_zero_of_le (le_of_lt hi)]
              simp
            rw [htake]
            exact hx
          · subst hi
            rw [List.get?_concat_length] at hget
            cases hget
            have htake : (R ++ [id]).take R.length = R := by
              rw [List.take_append_eq_append_take, Nat.sub_self]
              simp
            rw [htake]
            exact hQpred id hidQ e he hto
          · have : (R ++ [id]).get? i = none := by
              rw [List.get?_eq_none]
              simp only [List.length_append, List.length_singleton]
              omega
            rw [this] at hget
            cases hget
      show KahnPost s
        (kahnLoop (DAG.load DAG.empty s) fuel
          (((DAG.load DAG.empty s).getChildren id).foldl kfoldStep (inDeg, rest)).1
          (((DAG.load DAG.empty s).getChildren id).foldl kfoldStep (inDeg, rest)).2
          (R ++ [id]))
      refine ih _ _ _ hinv' ?_
      simp only [List.length_append, List.length_singleton]
      omega

theorem topologicalSort_post {D : Type} (s : DAGStructure D)
    (hwf : WFStructure s) : KahnPost s (topologicalSort s) := by
  have hinit := kahn_init s hwf
  unfold topologicalSort
  refine kahnLoop_spec s hwf _ _ _ _ hinit ?_
  simp only [List.length_map, List.length_nil]
  omega

theorem topo_perm {D : Type} (s : DAGStructure D) (hwf : WFStructure s)
    (hac : Acyclic s) :
    (topologicalSort s).Perm (s.nodes.map (·.id)) := by
  obtain ⟨hRnd, hRids, hMem, hPos⟩ := topologicalSort_post s hwf
  have hall : ∀ v ∈ s.nodes.map (·.id), v ∈ topologicalSort s := by
    by_contra hbad
    push_neg at hbad
    obtain ⟨v0, hv01, hv02⟩ := hbad
    have hSne : (s.nodes.map (·.id)).filter
        (fun v => decide (v ∉ topologicalSort s)) ≠ [] := by
      intro h0
      have hx := List.filter_eq_nil.mp h0 v0 hv01
      simp [hv02] at hx
    have hpred : ∀ v ∈ (s.nodes.map (·.id)).filter
        (fun v => decide (v ∉ topologicalSort s)),
        ∃ u ∈ (s.nodes.map (·.id)).filter
          (fun v => decide (v ∉ topologicalSort s)), ERel s u v := by
      intro v hv
      rw [List.mem_filter] at hv
      have hvids := hv.1
      have hvR : v ∉ topologicalSort s := by simpa using hv.2
      have hcnt : inCountFrom s (topologicalSort s) v ≠ 0 := by
        intro h0
        exact hvR ((hMem v hvids).mpr h0)
      obtain ⟨e, he, hto, hfrom⟩ := inCountFrom_ne_zero hcnt
      refine ⟨e.«from», ?_, ?_⟩
      · rw [List.mem_filter]
        refine ⟨(hwf.2.2 e he).1, by simpa using hfrom⟩
      · show DAGEdge.mk e.«from» v ∈ s.edges
        rw [← hto]
        cases e
        exact he
    obtain ⟨w, hw⟩ := cycle_of_preds hSne hpred
    exact hac w hw
  have h1 : (topologicalSort s).Subperm (s.nodes.map (·.id)) :=
    hRnd.subperm (fun x hx => hRids x hx)
  have h2 : (s.nodes.map (·.id)).Subperm (topologicalSort s) :=
    hwf.1.subperm (fun x hx => hall x hx)
  exact h1.perm_of_length_le h2.length_le

theorem topo_precedence {D : Type} (s : DAGStructure D) (hwf : WFStructure s)
    (hac : Acyclic s) (e : DAGEdge) (he : e ∈ s.edges) :
    ∃ i j, i < j ∧ (topologicalSort s).get? i = some e.«from» ∧
      (topologicalSort s).get? j = some e.«to» := by
  have hperm := topo_perm s hwf hac
  obtain ⟨-, -, -, hPos⟩ := topologicalSort_post s hwf
  have hto : e.«to» ∈ topologicalSort s :=
    hperm.mem_iff.mpr (hwf.2.2 e he).2
  obtain ⟨j, hj⟩ := List.mem_iff_get?.mp hto
  have hfrom : e.«from» ∈ (topologicalSort s).take j := hPos j _ hj e he rfl
  obtain ⟨i, hi⟩ := List.mem_iff_get?.mp hfrom
  have hilt : i < ((topologicalSort s).take j).length := by
    obtain ⟨h, -⟩ := List.get?_eq_some.mp hi
    exact h
  have hij : i < j := by
    rw [List.length_take] at hilt
    omega
  refine ⟨i, j, hij, ?_, hj⟩
  rw [← List.get?_take hij]
  exact hi

theorem get?_indexOf_self {l : List String} {a : String} (h : a ∈ l) :
    l.get? (l.indexOf a) = some a := by
  have hlt := List.indexOf_lt_length.mpr h
  rw [List.get?_eq_get hlt]
  exact congrArg some (List.indexOf_get hlt)

theorem indexOf_le_of_lookup {l : List String} {i : Nat} {a : String}
    (h : l.get? i = some a) : l.indexOf a ≤ i := by
  induction l generalizing i with
  | nil => simp at h
  | cons b t ih =>
    cases i with
    | zero =>
      simp only [List.get?_cons_zero, Option.some_inj] at h
      subst h
      simp [List.indexOf_cons_self]
    | succ n =>
      simp only [List.get?_cons_succ] at h
      by_cases hab : b = a
      · subst hab
        simp [List.indexOf_cons_self]
      · rw [List.indexOf_cons_ne _ hab]
        exact Nat.succ_le_succ (ih h)

theorem acyclic_of_topo_perm {D : Type} (s : DAGStructure D)
    (hwf : WFStructure s)
    (hlen : (topologicalSort s).length = (s.nodes.map (·.id)).length) :
    Acyclic s := by
  obtain ⟨hRnd, hRids, hMem, hPos⟩ := topologicalSort_post s hwf
  have h1 : (topologicalSort s).Subperm (s.nodes.map (·.id)) :=
    hRnd.subperm (fun x hx => hRids x hx)
  have hperm : (topologicalSort s).Perm (s.nodes.map (·.id)) :=
    h1.perm_of_length_le (le_of_eq hlen.symm)
  intro v hv
  have hstep : ∀ a b : String, ERel s a b →
      (topologicalSort s).indexOf a < (topologicalSort s).indexOf b := by
    intro a b hab
    have hbids : b ∈ s.nodes.map (·.id) := by
      have := (hwf.2.2 _ hab).2
      simpa using this
    have hbR : b ∈ topologicalSort s := hperm.mem_iff.mpr hbids
    have hbget : (topologicalSort s).get? ((topologicalSort s).indexOf b) =
        some b := get?_indexOf_self hbR
    have hatake : a ∈ (topologicalSort s).take ((topologicalSort s).indexOf b) :=
      hPos _ b hbget (DAGEdge.mk a b) hab rfl
    obtain ⟨i, hi⟩ := List.mem_iff_get?.mp hatake
    have hilt : i <
        ((topologicalSort s).take ((topologicalSort s).indexOf b)).length := by
      obtain ⟨h, -⟩ := List.get?_eq_some.mp hi
      exact h
    have hib : i < (topologicalSort s).indexOf b := by
      rw [List.length_take] at hilt
      omega
    have hia : (topologicalSort s).get? i = some a := by
      rw [← List.get?_take hib]
      exact hi
    have := indexOf_le_of_lookup hia
    omega
  have hlt : Relation.TransGen
      (fun a b : String => (topologicalSort s).indexOf a <
        (topologicalSort s).indexOf b) v v :=
    Relation.TransGen.mono hstep hv
  have htr : Transitive (fun a b : String => (topologicalSort s).indexOf a <
      (topologicalSort s).indexOf b) := fun a b c hx hy => Nat.lt_trans hx hy
  rw [Relation.transGen_eq_self htr] at hlt
  exact absurd hlt (lt_irrefl _)

/-- C4 (counterexample): the duplicate-id structure is acyclic (it has no
edges at all), yet `topologicalSort` emits the id `a` once and so is not a
permutation of the two-element node id list. -/
theorem claim_C4_cex :
    Acyclic exDupIds ∧
    ¬ (topologicalSort exDupIds).Perm (exDupIds.nodes.map (·.id)) := by
  constructor
  · intro v hv
    obtain ⟨c, hc, -⟩ := Relation.TransGen.head'_iff.mp hv
    exact absurd hc (by simp [ERel, exDupIds])
  · decide

/-- C4 (amended): for every WELL-FORMED acyclic structure — distinct node
ids, distinct edges, no dangling endpoints — `topologicalSort` returns a
permutation of the node identifiers in which the source of every edge
occupies an earlier position than its destination. -/
theorem claim_C4 {D : Type} (s : DAGStructure D) (hwf : WFStructure s)
    (hac : Acyclic s) :
    (topologicalSort s).Perm (s.nodes.map (·.id)) ∧
    ∀ e ∈ s.edges, ∃ i j, i < j ∧
      (topologicalSort s).get? i = some e.«from» ∧
      (topologicalSort s).get? j = some e.«to» :=
  ⟨topo_perm s hwf hac, fun e he => topo_precedence s hwf hac e he⟩

theorem claim_C4_witness :
    WFStructure exSample ∧ Acyclic exSample ∧
    ((topologicalSort exSample).Perm (exSample.nodes.map (·.id)) ∧
     ∀ e ∈ exSample.edges, ∃ i j, i < j ∧
       (topologicalSort exSample).get? i = some e.«from» ∧
       (topologicalSort exSample).get? j = some e.«to») := by
  have hwf : WFStructure exSample := by decide
  have hac : Acyclic exSample := acyclic_of_topo_perm exSample hwf (by decide)
  exact ⟨hwf, hac, claim_C4 exSample hwf hac⟩

theorem dfsF_succ {D : Type} (dag : DAG D) (fuel : Nat) (u : String) (st : FCSt) :
    dfsF dag (fuel + 1) u st =
      (match dfsChildren (dfsF dag fuel) (dag.getChildren u)
          { st with
            visited := addS st.visited u
            recStack := addS st.recStack u
            path := st.path ++ [u]
            pathIndex := setA st.pathIndex u st.path.length } with
      | (st', true) => (st', true)
      | (st', false) =>
        ({ st' with
            path := st'.path.dropLast
            pathIndex := delA st'.pathIndex u
            recStack := delS st'.recStack u }, false)) := rfl

theorem dfsChildren_cons (next : String → FCSt → FCSt × Bool) (c : String)
    (cs : List String) (st : FCSt) :
    dfsChildren next (c :: cs) st =
      if c ∈ st.visited then
        if c ∈ st.recStack then
          ({ st with cycles := st.cycles ++
            [st.path.drop ((lookupA st.pathIndex c).getD 0) ++ [c]] }, true)
        else dfsChildren next cs st
      else
        match next c st with
        | (st', true) => (st', true)
        | (st', false) => dfsChildren next cs st' := rfl

theorem addS_eq_append {l : List String} {u : String} (h : u ∉ l) :
    addS l u = l ++ [u] := by
  unfold addS
  rw [if_neg h]

theorem delS_append_self : ∀ (l : List String) (u : String), u ∉ l →
    delS (l ++ [u]) u = l := by
  intro l u
  induction l with
  | nil => intro _; simp [delS]
  | cons a t ih =>
    intro h
    have ha : a ≠ u := fun hh => h (hh ▸ List.mem_cons_self _ _)
    have ht : u ∉ t := fun hh => h (List.mem_cons_of_mem _ hh)
    show delS (a :: (t ++ [u])) u = a :: t
    rw [show delS (a :: (t ++ [u])) u = a :: delS (t ++ [u]) u by
      simp [delS, ha]]
    rw [ih ht]

theorem chain_closed {D : Type} {s : DAGStructure D} {B : String → Prop}
    (hcl : ∀ a b, B a → ERel s a b → B b) :
    ∀ (l : List String) (a : String), B a → List.Chain (ERel s) a l →
      ∀ x ∈ l, B x := by
  intro l
  induction l with
  | nil => intro a _ _ x hx; simp at hx
  | cons b t ih =>
    intro a ha hch x hx
    rw [List.chain_cons] at hch
    have hb : B b := hcl a b ha hch.1
    rcases List.mem_cons.mp hx with rfl | hx2
    · exact hb
    · exact ih b hb hch.2 x hx2

theorem no_cycle_extend {D : Type} {s : DAGStructure D} {B : String → Prop}
    {u : String} (hcl : ∀ a b, B a → ERel s a b → B b)
    (hnc : ¬ CycleWithin s B) (hu : ¬ B u)
    (hch : ∀ c, ERel s u c → B c) :
    ¬ CycleWithin s (fun x => B x ∨ x = u) := by
  rintro ⟨v, l, hne, hchain, hlast, hv, hall⟩
  rcases hv with hv | rfl
  · exact hnc ⟨v, l, hne, hchain, hlast, hv, chain_closed hcl l v hv hchain⟩
  · match l, hne, hchain, hlast with
    | c :: l', _, hchain, hlast =>
      rw [List.chain_cons] at hchain
      have hc : B c := hch c hchain.1
      have hlmem : ∀ x ∈ l', B x := chain_closed hcl l' c hc hchain.2
      have hvmem : v ∈ c :: l' := List.mem_of_mem_getLast? hlast
      rcases List.mem_cons.mp hvmem with rfl | hv2
      · exact hu hc
      · exact hu (hlmem v hv2)

theorem cycleWithin_imp {D : Type} {s : DAGStructure D} {B C : String → Prop}
    (h : ∀ x, B x → C x) : CycleWithin s B → CycleWithin s C := by
  rintro ⟨v, l, hne, hchain, hlast, hv, hall⟩
  exact ⟨v, l, hne, hchain, hlast, h v hv, fun x hx => h x (hall x hx)⟩

theorem dfsChildren_mono (next : String → FCSt → FCSt × Bool)
    (hnext : ∀ c st, (∀ x ∈ st.visited, x ∈ (next c st).1.visited) ∧
      ∃ ex, (next c st).1.cycles = st.cycles ++ ex) :
    ∀ (cs : List String) (st : FCSt),
      (∀ x ∈ st.visited, x ∈ (dfsChildren next cs st).1.visited) ∧
      ∃ ex, (dfsChildren next cs st).1.cycles = st.cycles ++ ex := by
  intro cs
  induction cs with
  | nil => intro st; exact ⟨fun x hx => hx, [], by simp [dfsChildren]⟩
  | cons c cs ih =>
    intro st
    rw [dfsChildren_cons]
    by_cases h1 : c ∈ st.visited
    · rw [if_pos h1]
      by_cases h2 : c ∈ st.recStack
      · rw [if_pos h2]
        exact ⟨fun x hx => hx, [st.path.drop ((lookupA st.pathIndex c).getD 0) ++ [c]], rfl⟩
      · rw [if_neg h2]
        exact ih st
    · rw [if_neg h1]
      rcases hres : next c st with ⟨st2, r⟩
      have ha := hnext c st
      rw [hres] at ha
      obtain ⟨hv2, ex2, hc2⟩ := ha
      cases r
      · simp only []
        obtain ⟨hv3, ex3, hc3⟩ := ih st2
        refine ⟨fun x hx => hv3 x (hv2 x hx), ex2 ++ ex3, ?_⟩
        rw [hc3, hc2, List.append_assoc]
      · exact ⟨hv2, ex2, hc2⟩

theorem dfsF_mono {D : Type} (dag : DAG D) :
    ∀ (fuel : Nat) (u : String) (st : FCSt),
      (∀ x ∈ st.visited, x ∈ (dfsF dag fuel u st).1.visited) ∧
      ∃ ex, (dfsF dag fuel u st).1.cycles = st.cycles ++ ex := by
  intro fuel
  induction fuel with
  | zero => intro u st; exact ⟨fun x hx => hx, [], by simp [dfsF]⟩
  | succ fuel ih =>
    intro u st
    rw [dfsF_succ]
    rcases hres : dfsChildren (dfsF dag fuel) (dag.getChildren u)
        { st with
          visited := addS st.visited u
          recStack := addS st.recStack u
          path := st.path ++ [u]
          pathIndex := setA st.pathIndex u st.path.length } with ⟨st', r⟩
    have ha := dfsChildren_mono (dfsF dag fuel) (fun c st0 => ih c st0)
      (dag.getChildren u)
      { st with
        visited := addS st.visited u
        recStack := addS st.recStack u
        path := st.path ++ [u]
        pathIndex := setA st.pathIndex u st.path.length }
    rw [hres] at ha
    obtain ⟨hv2, ex2, hc2⟩ := ha
    have hvm : ∀ x ∈ st.visited, x ∈ st'.visited := by
      intro x hx
      exact hv2 x (by rw [mem_addS]; exact Or.inl hx)
    cases r
    · exact ⟨hvm, ex2, hc2⟩
    · exact ⟨hvm, ex2, hc2⟩

theorem fcLoop_mono {D : Type} (dag : DAG D) (fuel : Nat) :
    ∀ (idsL : List String) (st : FCSt),
      (∀ x ∈ st.visited, x ∈ (fcLoop dag fuel idsL st).visited) ∧
      ∃ ex, (fcLoop dag fuel idsL st).cycles = st.cycles ++ ex := by
  intro idsL
  induction idsL with
  | nil => intro st; exact ⟨fun x hx => hx, [], by simp [fcLoop]⟩
  | cons id rest ih =>
    intro st
    show (∀ x ∈ st.visited, x ∈ (fcLoop dag fuel (id :: rest) st).visited) ∧ _
    unfold fcLoop
    by_cases h1 : id ∈ st.visited
    · rw [if_pos h1]
      exact ih st
    · rw [if_neg h1]
      obtain ⟨hv2, ex2, hc2⟩ := dfsF_mono dag fuel id st
      obtain ⟨hv3, ex3, hc3⟩ := ih (dfsF dag fuel id st).1
      refine ⟨fun x hx => hv3 x (hv2 x hx), ex2 ++ ex3, ?_⟩
      rw [hc3, hc2, List.append_assoc]

theorem dfsChildren_acyclic {D : Type} {s : DAGStructure D}
    (hac : Acyclic s) (u : String)
    (next : String → FCSt → FCSt × Bool)
    (hnext : ∀ c st0, (∀ x ∈ st0.recStack, Relation.ReflTransGen (ERel s) x c) →
      (∀ x ∈ st0.recStack, x ∈ st0.visited) → c ∉ st0.visited →
      ∃ st2, next c st0 = (st2, false) ∧ st2.cycles = st0.cycles ∧
        st2.recStack = st0.recStack ∧ (∀ x ∈ st0.visited, x ∈ st2.visited)) :
    ∀ (cs : List String) (st : FCSt),
      (∀ c ∈ cs, ERel s u c) →
      (∀ x ∈ st.recStack, Relation.ReflTransGen (ERel s) x u) →
      (∀ x ∈ st.recStack, x ∈ st.visited) →
      ∃ st2, dfsChildren next cs st = (st2, false) ∧ st2.cycles = st.cycles ∧
        st2.recStack = st.recStack ∧ (∀ x ∈ st.visited, x ∈ st2.visited) := by
  intro cs
  induction cs with
  | nil =>
    intro st _ _ _
    exact ⟨st, rfl, rfl, rfl, fun x hx => hx⟩
  | cons c cs ih =>
    intro st hcs hrt hrv
    rw [dfsChildren_cons]
    by_cases h1 : c ∈ st.visited
    · rw [if_pos h1]
      by_cases h2 : c ∈ st.recStack
      · exfalso
        have h3 : Relation.ReflTransGen (ERel s) c u := hrt c h2
        have h4 : ERel s u c := hcs c (List.mem_cons_self _ _)
        exact hac c (Relation.TransGen.trans_right h3 (Relation.TransGen.single h4))
      · rw [if_neg h2]
        exact ih st (fun x hx => hcs x (List.mem_cons_of_mem _ hx)) hrt hrv
    · rw [if_neg h1]
      obtain ⟨st2, hst2, hcyc2, hrs2, hvm2⟩ := hnext c st
        (fun x hx =>
          Relation.ReflTransGen.tail (hrt x hx) (hcs c (List.mem_cons_self _ _)))
        hrv h1
      rw [hst2]
      obtain ⟨st3, hst3, hcyc3, hrs3, hvm3⟩ := ih st2
        (fun x hx => hcs x (List.mem_cons_of_mem _ hx))
        (by rw [hrs2]; exact hrt)
        (by rw [hrs2]; intro x hx; exact hvm2 x (hrv x hx))
      exact ⟨st3, hst3, by rw [hcyc3, hcyc2], by rw [hrs3, hrs2],
        fun x hx => hvm3 x (hvm2 x hx)⟩

theorem dfs_acyclic {D : Type} {s : DAGStructure D} (hac : Acyclic s)
    (hn : (s.nodes.map (·.id)).Nodup)
    (hd : ∀ e ∈ s.edges, e.«from» ∈ s.nodes.map (·.id) ∧
      e.«to» ∈ s.nodes.map (·.id)) :
    ∀ (fuel : Nat) (u : String) (st : FCSt),
      (∀ x ∈ st.recStack, Relation.ReflTransGen (ERel s) x u) →
      (∀ x ∈ st.recStack, x ∈ st.visited) →
      u ∉ st.visited →
      ∃ st2, dfsF (DAG.load DAG.empty s) fuel u st = (st2, false) ∧
        st2.cycles = st.cycles ∧ st2.recStack = st.recStack ∧
        (∀ x ∈ st.visited, x ∈ st2.visited) := by
  intro fuel
  induction fuel with
  | zero =>
    intro u st _ _ _
    exact ⟨st, rfl, rfl, rfl, fun x hx => hx⟩
  | succ fuel ih =>
    intro u st hrt hrv hu
    rw [dfsF_succ]
    obtain ⟨st', hst', hcyc', hrs', hvm'⟩ :=
      dfsChildren_acyclic hac u (dfsF (DAG.load DAG.empty s) fuel)
        (fun c st0 h1 h2 h3 => ih c st0 h1 h2 h3)
        ((DAG.load DAG.empty s).getChildren u)
        { st with
          visited := addS st.visited u
          recStack := addS st.recStack u
          path := st.path ++ [u]
          pathIndex := setA st.pathIndex u st.path.length }
        (fun c hc => (load_getChildren s hn hd u c).mp hc)
        (by
          intro x hx
          rcases mem_addS.mp hx with hx2 | rfl
          · exact hrt x hx2
          · exact Relation.ReflTransGen.refl)
        (by
          intro x hx
          rcases mem_addS.mp hx with hx2 | rfl
          · exact mem_addS.mpr (Or.inl (hrv x hx2))
          · exact mem_addS.mpr (Or.inr rfl))
    rw [hst']
    have hurs : u ∉ st.recStack := fun hh => hu (hrv u hh)
    refine ⟨_, rfl, ?_, ?_, ?_⟩
    · exact hcyc'
    · show delS st'.recStack u = st.recStack
      rw [hrs']
      show delS (addS st.recStack u) u = st.recStack
      rw [addS_eq_append hurs]
      exact delS_append_self st.recStack u hurs
    · intro x hx
      exact hvm' x (mem_addS.mpr (Or.inl hx))

theorem fcLoop_acyclic {D : Type} {s : DAGStructure D} (hac : Acyclic s)
    (hn : (s.nodes.map (·.id)).Nodup)
    (hd : ∀ e ∈ s.edges, e.«from» ∈ s.nodes.map (·.id) ∧
      e.«to» ∈ s.nodes.map (·.id)) (fuel : Nat) :
    ∀ (idsL : List String) (st : FCSt), st.recStack = [] →
      (fcLoop (DAG.load DAG.empty s) fuel idsL st).cycles = st.cycles := by
  intro idsL
  induction idsL with
  | nil => intro st _; rfl
  | cons id rest ih =>
    intro st hrs
    show (fcLoop (DAG.load DAG.empty s) fuel (id :: rest) st).cycles = st.cycles
    unfold fcLoop
    by_cases h1 : id ∈ st.visited
    · rw [if_pos h1]
      exact ih st hrs
    · rw [if_neg h1]
      obtain ⟨st2, hst2, hcyc2, hrs2, -⟩ := dfs_acyclic hac hn hd fuel id st
        (by rw [hrs]; intro x hx; exact absurd hx (List.not_mem_nil x))
        (by rw [hrs]; intro x hx; exact absurd hx (List.not_mem_nil x))
        h1
      rw [hst2]
      rw [ih st2 (by rw [hrs2, hrs])]
      exact hcyc2

theorem findCycles_nil_of_acyclic {D : Type} {s : DAGStructure D}
    (hwf : WFStructure s) (hac : Acyclic s) :
    findCycles (DAG.load DAG.empty s) = [] := by
  obtain ⟨hn, -, hd⟩ := hwf
  unfold findCycles
  rw [fcLoop_acyclic hac hn hd _ _ FCSt.init rfl]
  rfl

theorem fcLoop_cons {D : Type} (dag : DAG D) (fuel : Nat) (id : String)
    (rest : List String) (st : FCSt) :
    fcLoop dag fuel (id :: rest) st =
      if id ∈ st.visited then fcLoop dag fuel rest st
      else fcLoop dag fuel rest (dfsF dag fuel id st).1 := rfl

theorem load_getNodes_ids {D : Type} (s : DAGStructure D)
    (hn : (s.nodes.map (·.id)).Nodup) :
    (DAG.load DAG.empty s).getNodes.map (·.id) = s.nodes.map (·.id) := by
  unfold DAG.getNodes
  rw [load_nodeMap s hn, List.map_map, List.map_map]
  rfl

theorem dfsFuel_bound {D : Type} (s : DAGStructure D)
    (hn : (s.nodes.map (·.id)).Nodup) :
    (s.nodes.map (·.id)).length < dfsFuel (DAG.load DAG.empty s) := by
  unfold dfsFuel
  rw [load_nodeMap s hn]
  simp only [List.length_map]
  omega

theorem dfsChildren_black {D : Type} {s : DAGStructure D}
    (hd : ∀ e ∈ s.edges, e.«from» ∈ s.nodes.map (·.id) ∧
      e.«to» ∈ s.nodes.map (·.id))
    (u : String) (fuel : Nat)
    (next : String → FCSt → FCSt × Bool)
    (hmono : ∀ c st0, (∀ x ∈ st0.visited, x ∈ (next c st0).1.visited) ∧
      ∃ ex, (next c st0).1.cycles = st0.cycles ++ ex)
    (hnext : ∀ c st0, FCInv s st0 → c ∈ s.nodes.map (·.id) → c ∉ st0.visited →
      (s.nodes.map (·.id)).length < fuel + st0.visited.length →
      (∀ x ∈ st0.visited, x ∈ (next c st0).1.visited) ∧
      c ∈ (next c st0).1.visited ∧
      ((next c st0).1.cycles = st0.cycles →
        (next c st0).2 = false ∧
        (next c st0).1.recStack = st0.recStack ∧
        (∀ x, st0.Black x → (next c st0).1.Black x) ∧
        (next c st0).1.Black c ∧
        FCInv s (next c st0).1)) :
    ∀ (cs : List String) (st : FCSt),
      FCInv s st →
      (∀ c ∈ cs, ERel s u c) →
      u ∈ st.visited → u ∈ st.recStack →
      (s.nodes.map (·.id)).length < fuel + st.visited.length →
      (∀ x ∈ st.visited, x ∈ (dfsChildren next cs st).1.visited) ∧
      ((dfsChildren next cs st).1.cycles = st.cycles →
        (dfsChildren next cs st).2 = false ∧
        (dfsChildren next cs st).1.recStack = st.recStack ∧
        (∀ x, st.Black x → (dfsChildren next cs st).1.Black x) ∧
        FCInv s (dfsChildren next cs st).1 ∧
        u ∈ (dfsChildren next cs st).1.visited ∧
        u ∈ (dfsChildren next cs st).1.recStack ∧
        (∀ c ∈ cs, (dfsChildren next cs st).1.Black c)) := by
  intro cs
  induction cs with
  | nil =>
    intro st hinv _ hu hur _
    refine ⟨fun x hx => hx, fun _ => ⟨rfl, rfl, fun x hx => hx, hinv, hu, hur, ?_⟩⟩
    intro c hc
    exact absurd hc (List.not_mem_nil c)
  | cons c cs ih =>
    intro st hinv hcs hu hur hfb
    by_cases h1 : c ∈ st.visited
    · by_cases h2 : c ∈ st.recStack
      · have heq : dfsChildren next (c :: cs) st =
            ({ st with cycles := st.cycles ++
              [st.path.drop ((lookupA st.pathIndex c).getD 0) ++ [c]] }, true) := by
          rw [dfsChildren_cons, if_pos h1, if_pos h2]
        rw [heq]
        refine ⟨fun x hx => hx, ?_⟩
        intro habs
        exfalso
        have h3 : st.cycles ++
            [st.path.drop ((lookupA st.pathIndex c).getD 0) ++ [c]] =
            st.cycles := habs
        have h4 := congrArg List.length h3
        simp at h4
      · have heq : dfsChildren next (c :: cs) st = dfsChildren next cs st := by
          rw [dfsChildren_cons, if_pos h1, if_neg h2]
        rw [heq]
        have hBc : st.Black c := ⟨h1, h2⟩
        obtain ⟨hm, hcond⟩ :=
          ih st hinv (fun x hx => hcs x (List.mem_cons_of_mem _ hx)) hu hur hfb
        refine ⟨hm, ?_⟩
        intro hcyc
        obtain ⟨hf, hrs, hbm, hinv2, hu2, hur2, hblk⟩ := hcond hcyc
        refine ⟨hf, hrs, hbm, hinv2, hu2, hur2, ?_⟩
        intro c2 hc2
        rcases List.mem_cons.mp hc2 with rfl | hx
        · exact hbm c2 hBc
        · exact hblk c2 hx
    · have hcids : c ∈ s.nodes.map (·.id) := by
        have := (hd _ (hcs c (List.mem_cons_self _ _))).2
        simpa using this
      obtain ⟨hm2, hc2mem, hcond2⟩ := hnext c st hinv hcids h1 hfb
      rcases hres : next c st with ⟨st2, r⟩
      rw [hres] at hm2 hc2mem hcond2
      cases r
      · have heq : dfsChildren next (c :: cs) st = dfsChildren next cs st2 := by
          rw [dfsChildren_cons, if_neg h1, hres]
        rw [heq]
        by_cases hceq : st2.cycles = st.cycles
        · obtain ⟨-, hrs2, hbm2, hblk2, hinv2⟩ := hcond2 hceq
          have hlen2 : st.visited.length ≤ st2.visited.length :=
            (hinv.1.subperm (fun x hx => hm2 x hx)).length_le
          have hfb2 : (s.nodes.map (·.id)).length <
              fuel + st2.visited.length := by omega
          obtain ⟨hm3, hcond3⟩ := ih st2 hinv2
            (fun x hx => hcs x (List.mem_cons_of_mem _ hx))
            (hm2 u hu) (by rw [hrs2]; exact hur) hfb2
          refine ⟨fun x hx => hm3 x (hm2 x hx), ?_⟩
          intro hcyc3
          have hcyc3' : (dfsChildren next cs st2).1.cycles = st2.cycles := by
            rw [hceq]
            exact hcyc3
          obtain ⟨hf, hrs3, hbm3, hinv3, hu3, hur3, hblk3⟩ := hcond3 hcyc3'
          refine ⟨hf, by rw [hrs3, hrs2], fun x hx => hbm3 x (hbm2 x hx),
            hinv3, hu3, by rw [hrs3, hrs2]; exact hur, ?_⟩
          intro c2 hc2
          rcases List.mem_cons.mp hc2 with rfl | hx
          · exact hbm3 c2 hblk2
          · exact hblk3 c2 hx
        · obtain ⟨hm4, ex4, hc4⟩ := dfsChildren_mono next hmono cs st2
          refine ⟨fun x hx => hm4 x (hm2 x hx), ?_⟩
          intro hcyc
          exfalso
          apply hceq
          obtain ⟨-, ex2, hcex2⟩ := hmono c st
          rw [hres] at hcex2
          rw [hc4, hcex2] at hcyc
          have hlen := congrArg List.length hcyc
          simp only [List.length_append] at hlen
          have hex2 : ex2 = [] := List.length_eq_zero.mp (by omega)
          rw [hcex2, hex2]
          simp
      · have heq : dfsChildren next (c :: cs) st = (st2, true) := by
          rw [dfsChildren_cons, if_neg h1, hres]
        rw [heq]
        refine ⟨hm2, ?_⟩
        intro hcyc
        obtain ⟨hf, -⟩ := hcond2 hcyc
        exact absurd hf (by simp)

theorem dfs_black {D : Type} {s : DAGStructure D}
    (hn : (s.nodes.map (·.id)).Nodup)
    (hd : ∀ e ∈ s.edges, e.«from» ∈ s.nodes.map (·.id) ∧
      e.«to» ∈ s.nodes.map (·.id)) :
    ∀ (fuel : Nat) (u : String) (st : FCSt),
      FCInv s st → u ∈ s.nodes.map (·.id) → u ∉ st.visited →
      (s.nodes.map (·.id)).length < fuel + st.visited.length →
      (∀ x ∈ st.visited, x ∈ (dfsF (DAG.load DAG.empty s) fuel u st).1.visited) ∧
      u ∈ (dfsF (DAG.load DAG.empty s) fuel u st).1.visited ∧
      ((dfsF (DAG.load DAG.empty s) fuel u st).1.cycles = st.cycles →
        (dfsF (DAG.load DAG.empty s) fuel u st).2 = false ∧
        (dfsF (DAG.load DAG.empty s) fuel u st).1.recStack = st.recStack ∧
        (∀ x, st.Black x → (dfsF (DAG.load DAG.empty s) fuel u st).1.Black x) ∧
        (dfsF (DAG.load DAG.empty s) fuel u st).1.Black u ∧
        FCInv s (dfsF (DAG.load DAG.empty s) fuel u st).1) := by
  intro fuel
  induction fuel with
  | zero =>
    intro u st hinv _ _ hfb
    exfalso
    have hle : st.visited.length ≤ (s.nodes.map (·.id)).length :=
      (hinv.1.subperm (fun x hx => hinv.2.1 x hx)).length_le
    omega
  | succ fuel ih =>
    intro u st hinv hu hnv hfb
    obtain ⟨hvnd, hvids, hrv, hclo, hnc⟩ := hinv
    have hadd : addS st.visited u = st.visited ++ [u] := addS_eq_append hnv
    have hura : u ∉ st.recStack := fun hh => hnv (hrv u hh)
    have hB1 : ∀ x,
        (FCSt.mk st.cycles (addS st.visited u) (addS st.recStack u)
          (st.path ++ [u]) (setA st.pathIndex u st.path.length)).Black x ↔
        st.Black x := by
      intro x
      show (x ∈ addS st.visited u ∧ x ∉ addS st.recStack u) ↔ _
      constructor
      · rintro ⟨hx1, hx2⟩
        have hx3 : x ≠ u := by
          intro hh
          exact hx2 (mem_addS.mpr (Or.inr hh))
        rcases mem_addS.mp hx1 with hx4 | hx4
        · exact ⟨hx4, fun hh => hx2 (mem_addS.mpr (Or.inl hh))⟩
        · exact absurd hx4 hx3
      · rintro ⟨hx1, hx2⟩
        have hx3 : x ≠ u := fun hh => hnv (hh ▸ hx1)
        refine ⟨mem_addS.mpr (Or.inl hx1), ?_⟩
        intro hh
        rcases mem_addS.mp hh with hh2 | hh2
        · exact hx2 hh2
        · exact hx3 hh2
    have hinv1 : FCInv s (FCSt.mk st.cycles (addS st.visited u)
        (addS st.recStack u) (st.path ++ [u])
        (setA st.pathIndex u st.path.length)) := by
      refine ⟨?_, ?_, ?_, ?_, ?_⟩
      · exact nodup_addS u hvnd
      · intro x hx
        rcases mem_addS.mp hx with hx2 | rfl
        · exact hvids x hx2
        · exact hu
      · intro x hx
        rcases mem_addS.mp hx with hx2 | rfl
        · exact mem_addS.mpr (Or.inl (hrv x hx2))
        · exact mem_addS.mpr (Or.inr rfl)
      · intro x hx c hc
        exact (hB1 c).mpr (hclo x ((hB1 x).mp hx) c hc)
      · intro hcyc
        exact hnc (cycleWithin_imp (fun x hx => (hB1 x).mp hx) hcyc)
    obtain ⟨HM, HC⟩ := dfsChildren_black hd u fuel
      (dfsF (DAG.load DAG.empty s) fuel)
      (fun c st0 => dfsF_mono (DAG.load DAG.empty s) fuel c st0)
      (fun c st0 ha hb hc hdd =>
        ⟨(ih c st0 ha hb hc hdd).1, (ih c st0 ha hb hc hdd).2.1,
         fun hcy =>
           ⟨((ih c st0 ha hb hc hdd).2.2 hcy).1,
            ((ih c st0 ha hb hc hdd).2.2 hcy).2.1,
            ((ih c st0 ha hb hc hdd).2.2 hcy).2.2.1,
            ((ih c st0 ha hb hc hdd).2.2 hcy).2.2.2.1,
            ((ih c st0 ha hb hc hdd).2.2 hcy).2.2.2.2⟩⟩)
      ((DAG.load DAG.empty s).getChildren u)
      (FCSt.mk st.cycles (addS st.visited u) (addS st.recStack u)
        (st.path ++ [u]) (setA st.pathIndex u st.path.length))
      hinv1
      (fun c hc => (load_getChildren s hn hd u c).mp hc)
      (mem_addS.mpr (Or.inr rfl))
      (mem_addS.mpr (Or.inr rfl))
      (by
        show _ < fuel + (addS st.visited u).length
        rw [hadd, List.length_append, List.length_singleton]
        omega)
    rcases hres : dfsChildren (dfsF (DAG.load DAG.empty s) fuel)
        ((DAG.load DAG.empty s).getChildren u)
        (FCSt.mk st.cycles (addS st.visited u) (addS st.recStack u)
          (st.path ++ [u]) (setA st.pathIndex u st.path.length)) with ⟨st', r⟩
    rw [hres] at HM HC
    cases r
    · have heq : dfsF (DAG.load DAG.empty s) (fuel + 1) u st =
          ({ st' with
              path := st'.path.dropLast
              pathIndex := delA st'.pathIndex u
              recStack := delS st'.recStack u }, false) := by
        rw [dfsF_succ]
        show (match dfsChildren (dfsF (DAG.load DAG.empty s) fuel)
            ((DAG.load DAG.empty s).getChildren u)
            (FCSt.mk st.cycles (addS st.visited u) (addS st.recStack u)
              (st.path ++ [u]) (setA st.pathIndex u st.path.length)) with
          | (st', true) => (st', true)
          | (st', false) =>
            ({ st' with
                path := st'.path.dropLast
                pathIndex := delA st'.pathIndex u
                recStack := delS st'.recStack u }, false)) = _
        rw [hres]
      rw [heq]
      refine ⟨fun x hx => HM x (mem_addS.mpr (Or.inl hx)),
        HM u (mem_addS.mpr (Or.inr rfl)), ?_⟩
      intro hcyc
      have hcyc1 : st'.cycles = st.cycles := hcyc
      obtain ⟨-, hrs', hbm', hinv', hu', hur', hblk'⟩ := HC hcyc1
      obtain ⟨hvnd', hvids', hrv', hclo', hnc'⟩ := hinv'
      have hrseq : delS st'.recStack u = st.recStack := by
        rw [hrs']
        show delS (addS st.recStack u) u = st.recStack
        rw [addS_eq_append hura]
        exact delS_append_self st.recStack u hura
      have hBfin : ∀ x,
          (FCSt.mk st'.cycles st'.visited (delS st'.recStack u)
            st'.path.dropLast (delA st'.pathIndex u)).Black x ↔
          (st'.Black x ∨ x = u) := by
        intro x
        show (x ∈ st'.visited ∧ x ∉ delS st'.recStack u) ↔ _
        constructor
        · rintro ⟨hx1, hx2⟩
          by_cases hxu : x = u
          · exact Or.inr hxu
          · refine Or.inl ⟨hx1, ?_⟩
            intro hh
            exact hx2 (mem_delS.mpr ⟨hh, hxu⟩)
        · rintro (⟨hx1, hx2⟩ | rfl)
          · exact ⟨hx1, fun hh => hx2 (mem_delS.mp hh).1⟩
          · exact ⟨hu', fun hh => (mem_delS.mp hh).2 rfl⟩
      refine ⟨rfl, hrseq, ?_, ?_, ?_⟩
      · intro x hx
        exact (hBfin x).mpr (Or.inl (hbm' x ((hB1 x).mpr hx)))
      · exact (hBfin u).mpr (Or.inr rfl)
      · refine ⟨hvnd', hvids', ?_, ?_, ?_⟩
        · intro x hx
          exact hrv' x (mem_delS.mp hx).1
        · intro x hx c hc
          rcases (hBfin x).mp hx with hx2 | rfl
          · exact (hBfin c).mpr (Or.inl (hclo' x hx2 c hc))
          · exact (hBfin c).mpr
              (Or.inl (hblk' c ((load_getChildren s hn hd x c).mpr hc)))
        · intro hcycw
          have hclo2 : ∀ a b, st'.Black a → ERel s a b → st'.Black b :=
            fun a b ha hab => hclo' a ha b hab
          have hnc2 : ¬ CycleWithin s st'.Black := hnc'
          have hub2 : ¬ st'.Black u := fun hb => hb.2 hur'
          have hch2 : ∀ c, ERel s u c → st'.Black c :=
            fun c hc => hblk' c ((load_getChildren s hn hd u c).mpr hc)
          have hnoc := no_cycle_extend hclo2 hnc2 hub2 hch2
          exact hnoc (cycleWithin_imp (fun x hx => (hBfin x).mp hx) hcycw)
    · have heq : dfsF (DAG.load DAG.empty s) (fuel + 1) u st = (st', true) := by
        rw [dfsF_succ]
        show (match dfsChildren (dfsF (DAG.load DAG.empty s) fuel)
            ((DAG.load DAG.empty s).getChildren u)
            (FCSt.mk st.cycles (addS st.visited u) (addS st.recStack u)
              (st.path ++ [u]) (setA st.pathIndex u st.path.length)) with
          | (st', true) => (st', true)
          | (st', false) =>
            ({ st' with
                path := st'.path.dropLast
                pathIndex := delA st'.pathIndex u
                recStack := delS st'.recStack u }, false)) = _
        rw [hres]
      rw [heq]
      refine ⟨fun x hx => HM x (mem_addS.mpr (Or.inl hx)),
        HM u (mem_addS.mpr (Or.inr rfl)), ?_⟩
      intro hcyc
      have hcyc1 : st'.cycles = st.cycles := hcyc
      obtain ⟨hf, -⟩ := HC hcyc1
      exact absurd hf (by simp)

theorem fcLoop_black {D : Type} {s : DAGStructure D}
    (hn : (s.nodes.map (·.id)).Nodup)
    (hd : ∀ e ∈ s.edges, e.«from» ∈ s.nodes.map (·.id) ∧
      e.«to» ∈ s.nodes.map (·.id))
    (fuel : Nat) (hfuel : (s.nodes.map (·.id)).length < fuel) :
    ∀ (idsL : List String) (st : FCSt),
      (∀ x ∈ idsL, x ∈ s.nodes.map (·.id)) →
      FCInv s st → st.recStack = [] →
      ((fcLoop (DAG.load DAG.empty s) fuel idsL st).cycles = st.cycles →
        FCInv s (fcLoop (DAG.load DAG.empty s) fuel idsL st) ∧
        (fcLoop (DAG.load DAG.empty s) fuel idsL st).recStack = [] ∧
        (∀ x ∈ st.visited, x ∈ (fcLoop (DAG.load DAG.empty s) fuel idsL st).visited) ∧
        (∀ x ∈ idsL, x ∈ (fcLoop (DAG.load DAG.empty s) fuel idsL st).visited)) := by
  intro idsL
  induction idsL with
  | nil =>
    intro st _ hinv hrs _
    exact ⟨hinv, hrs, fun x hx => hx, fun x hx => absurd hx (List.not_mem_nil x)⟩
  | cons id rest ih =>
    intro st hsub hinv hrs
    by_cases h1 : id ∈ st.visited
    · have heq : fcLoop (DAG.load DAG.empty s) fuel (id :: rest) st =
          fcLoop (DAG.load DAG.empty s) fuel rest st := by
        rw [fcLoop_cons, if_pos h1]
      rw [heq]
      intro hcyc
      obtain ⟨hinv2, hrs2, hm2, hall2⟩ :=
        ih st (fun x hx => hsub x (List.mem_cons_of_mem _ hx)) hinv hrs hcyc
      refine ⟨hinv2, hrs2, hm2, ?_⟩
      intro x hx
      rcases List.mem_cons.mp hx with rfl | hx2
      · exact hm2 x h1
      · exact hall2 x hx2
    · have heq : fcLoop (DAG.load DAG.empty s) fuel (id :: rest) st =
          fcLoop (DAG.load DAG.empty s) fuel rest
            (dfsF (DAG.load DAG.empty s) fuel id st).1 := by
        rw [fcLoop_cons, if_neg h1]
      rw [heq]
      intro hcyc
      have hfb : (s.nodes.map (·.id)).length < fuel + st.visited.length := by
        omega
      obtain ⟨hm2, humem, hcond⟩ := dfs_black hn hd fuel id st hinv
        (hsub id (List.mem_cons_self _ _)) h1 hfb
      by_cases hceq : (dfsF (DAG.load DAG.empty s) fuel id st).1.cycles = st.cycles
      · obtain ⟨-, hrs2, -, -, hinv2⟩ := hcond hceq
        obtain ⟨hinv3, hrs3, hm3, hall3⟩ := ih
          (dfsF (DAG.load DAG.empty s) fuel id st).1
          (fun x hx => hsub x (List.mem_cons_of_mem _ hx))
          hinv2 (by rw [hrs2, hrs]) (by rw [hceq]; exact hcyc)
        refine ⟨hinv3, hrs3, fun x hx => hm3 x (hm2 x hx), ?_⟩
        intro x hx
        rcases List.mem_cons.mp hx with rfl | hx2
        · exact hm3 x humem
        · exact hall3 x hx2
      · exfalso
        apply hceq
        obtain ⟨-, ex2, hcex2⟩ := dfsF_mono (DAG.load DAG.empty s) fuel id st
        obtain ⟨-, ex3, hcex3⟩ := fcLoop_mono (DAG.load DAG.empty s) fuel rest
          (dfsF (DAG.load DAG.empty s) fuel id st).1
        rw [hcex3, hcex2] at hcyc
        have hlen := congrArg List.length hcyc
        simp only [List.length_append] at hlen
        have hex2 : ex2 = [] := List.length_eq_zero.mp (by omega)
        rw [hcex2, hex2]
        simp

theorem acyclic_of_findCycles_nil {D : Type} {s : DAGStructure D}
    (hwf : WFStructure s)
    (h : findCycles (DAG.load DAG.empty s) = []) : Acyclic s := by
  obtain ⟨hn, -, hd⟩ := hwf
  have hfuel := dfsFuel_bound s hn
  have hids : ∀ x ∈ (DAG.load DAG.empty s).getNodes.map (·.id),
      x ∈ s.nodes.map (·.id) := by
    rw [load_getNodes_ids s hn]
    exact fun x hx => hx
  have hinv0 : FCInv s FCSt.init := by
    refine ⟨List.nodup_nil, ?_, ?_, ?_, ?_⟩
    · intro x hx
      exact absurd hx (List.not_mem_nil x)
    · intro x hx
      exact absurd hx (List.not_mem_nil x)
    · intro x hx
      exact absurd hx.1 (List.not_mem_nil x)
    · rintro ⟨v, l, -, -, -, hv, -⟩
      exact absurd hv.1 (List.not_mem_nil v)
  have hcyc0 : (fcLoop (DAG.load DAG.empty s) (dfsFuel (DAG.load DAG.empty s))
      ((DAG.load DAG.empty s).getNodes.map (·.id)) FCSt.init).cycles =
      FCSt.init.cycles := h
  obtain ⟨hinvF, hrsF, -, hallF⟩ := fcLoop_black hn hd _ hfuel
    ((DAG.load DAG.empty s).getNodes.map (·.id)) FCSt.init hids hinv0 rfl hcyc0
  intro v hv
  have hblack : ∀ x, x ∈ s.nodes.map (·.id) →
      (fcLoop (DAG.load DAG.empty s) (dfsFuel (DAG.load DAG.empty s))
        ((DAG.load DAG.empty s).getNodes.map (·.id)) FCSt.init).Black x := by
    intro x hx
    refine ⟨hallF x (by rw [load_getNodes_ids s hn]; exact hx), ?_⟩
    rw [hrsF]
    exact List.not_mem_nil x
  obtain ⟨c0, hc0, -⟩ := Relation.TransGen.head'_iff.mp hv
  have hvids : v ∈ s.nodes.map (·.id) := by
    have := (hd _ hc0).1
    simpa using this
  obtain ⟨l, hne, hchain, hlast⟩ := transGen_cycle_chain hv
  have hlids : ∀ x ∈ l, x ∈ s.nodes.map (·.id) := by
    intro x hx
    obtain ⟨w, -, hwx⟩ := chain_mem_pred l v hchain x hx
    have := (hd _ hwx).2
    simpa using this
  exact hinvF.2.2.2.2 ⟨v, l, hne, hchain, hlast, hblack v hvids,
    fun x hx => hblack x (hlids x hx)⟩

theorem validateDAG_isAcyclic {D : Type} (s : DAGStructure D) :
    (validateDAG s).isAcyclic =
      decide ((findCycles (DAG.load DAG.empty s)).length = 0) := rfl

/-- C5 (counterexample): the dangling-edge structure is reported acyclic by
`validateDAG` (the DFS sees no cycle), yet `topologicalSort` returns an empty
order because the phantom edge keeps the single node's in-degree at 1, so the
output length differs from the node count. -/
theorem claim_C5_cex :
    (validateDAG exDangling).isAcyclic = true ∧
    (topologicalSort exDangling).length ≠ exDangling.nodes.length := by
  decide

/-- C5 (amended): for every structure, `isAcyclic` is true exactly when
`findCycles` on the loaded store returns no cycles; the second equivalence —
`isAcyclic` true exactly when `topologicalSort` emits as many ids as there
are nodes — holds for every WELL-FORMED structure (distinct node ids,
distinct edges, no dangling endpoints), but not in general. -/
theorem claim_C5 {D : Type} (s : DAGStructure D) :
    ((validateDAG s).isAcyclic = true ↔
      findCycles (DAG.load DAG.empty s) = []) ∧
    (WFStructure s →
      ((validateDAG s).isAcyclic = true ↔
        (topologicalSort s).length = s.nodes.length)) := by
  have hfst : (validateDAG s).isAcyclic = true ↔
      findCycles (DAG.load DAG.empty s) = [] := by
    rw [validateDAG_isAcyclic]
    rw [decide_eq_true_iff]
    exact List.length_eq_zero
  refine ⟨hfst, ?_⟩
  intro hwf
  constructor
  · intro hac
    have hcyc := hfst.mp hac
    have hacyc : Acyclic s := acyclic_of_findCycles_nil hwf hcyc
    have hperm := topo_perm s hwf hacyc
    rw [hperm.length_eq, List.length_map]
  · intro hlen
    have hacyc : Acyclic s := acyclic_of_topo_perm s hwf
      (by rw [List.length_map]; exact hlen)
    exact hfst.mpr (findCycles_nil_of_acyclic hwf hacyc)

theorem claim_C5_witness :
    ((validateDAG exSample).isAcyclic = true ↔
      findCycles (DAG.load DAG.empty exSample) = []) ∧
    WFStructure exSample ∧
    ((validateDAG exSample).isAcyclic = true ↔
      (topologicalSort exSample).length = exSample.nodes.length) :=
  ⟨(claim_C5 exSample).1, by decide, (claim_C5 exSample).2 (by decide)⟩

end ULDag
